import Mathlib

/-!
Sieve of Eratosthenes (`sieve.c`): embedding and verification

The program allocates `int *list` of `N` cells, zeroes the cells `2 .. N-1`
(`#pragma omp parallel for`), sweeps the candidates `c = 2 .. sqrtN` and, for
every candidate whose cell is still `0`, sets `list[m] = 1` for every `m` with
`c < m < N` and `m % c == 0` (`#pragma omp parallel for`), and finally prints
every `c` in `2 .. N-1` whose cell is `0`.

The embedding keeps the memory explicit: the buffer is a `List Int` (one `int`
per cell), every array access is checked against the allocated length and a
division by zero fails, so that a result `some _` says that the run performed no
out-of-bounds access.  A `for` loop with a counter that only the loop header
changes is a monadic left fold of its body over the values the counter takes.

Three further layers are built on the same bodies: the loops with `int` counters
and explicit tests (`forLoop`, for overflow and bounds), the function `main` with
the answers of `getopt` and `malloc` as inputs (`sieveMain`), and the value of
`(int)sqrt(N)` in binary64 (`sqrtDouble`).
-/

namespace Sieve

/-- The array `int *list`: cell `x` holds `1` when `x` is marked, `0` when unmarked. -/
abbrev Buffer := List Int

/-- The rvalue `list[i]`; fails outside the allocated block. -/
def readCell (list : Buffer) (i : Nat) : Option Int :=
  list[i]?

/-- The assignment `list[i] = v`; fails outside the allocated block. -/
def writeCell (list : Buffer) (i : Nat) (v : Int) : Option Buffer :=
  if i < list.length then some (list.set i v) else none

/-- The expression `m % c` on non-negative `int`s; fails for `c == 0`. -/
def cMod (m c : Nat) : Option Nat :=
  if c = 0 then none else some (m % c)

/-- One execution of a counted loop whose iterations are run in the sequence
`order`; the sequential loop `for (i = a; i < b; i++)` is `order = [a, .., b-1]`. -/
def runLoop (body : Buffer → Nat → Option Buffer) (order : List Nat) (list : Buffer) :
    Option Buffer :=
  order.foldlM body list

/-- The values taken by the counter of `for (i = a; i < b; i++)`. -/
def upTo (a b : Nat) : List Nat :=
  List.range' a (b - a)

/-- Line 68: `list[c] = 0;`. -/
def initBody (list : Buffer) (c : Nat) : Option Buffer :=
  writeCell list c 0

/-- Lines 65-69: `for (c = 2; c < N; c++) list[c] = 0;`. -/
def initializer (N : Nat) (list : Buffer) : Option Buffer :=
  runLoop initBody (upTo 2 N) list

/-- Lines 81-85: `if (m % c == 0) list[m] = 1;`. -/
def markBody (c : Nat) (list : Buffer) (m : Nat) : Option Buffer :=
  match cMod m c with
  | none => none
  | some r => if r = 0 then writeCell list m 1 else some list

/-- Lines 78-86: `for (m = c+1; m < N; m++) if (m % c == 0) list[m] = 1;`. -/
def parallelMarker (N c : Nat) (list : Buffer) : Option Buffer :=
  runLoop (markBody c) (upTo (c + 1) N) list

/-- Lines 74-87: `if (list[c] == 0)` run the marker round for `c`. -/
def driverBody (N : Nat) (list : Buffer) (c : Nat) : Option Buffer :=
  match readCell list c with
  | none => none
  | some v => if v = 0 then parallelMarker N c list else some list

/-- Line 52: `sqrtN = (int)sqrt(N);`, taken as the truncated exact square root, the
greatest `s` with `s * s <= N`.  The floating-point computation is `sqrtDouble`
below, which has this value for every `int` `N >= 0`. -/
def sqrtN (N : Nat) : Nat :=
  Nat.findGreatest (fun s => s * s ≤ N) N

/-- Lines 71-88: `for (c = 2; c <= sqrtN; c++)` with the body above. -/
def sieveDriver (N : Nat) (list : Buffer) : Option Buffer :=
  (upTo 2 (sqrtN N + 1)).foldlM (driverBody N) list

/-- Lines 95-99: `if (list[c] == 0) printf("%d ", c);` on the pair of the buffer
and the numbers printed so far. -/
def extractBody (st : Buffer × List Nat) (c : Nat) : Option (Buffer × List Nat) :=
  match readCell st.1 c with
  | none => none
  | some v => if v = 0 then some (st.1, st.2 ++ [c]) else some st

/-- Lines 92-100: `for (c = 2; c <= N - 1; c++)` with the body above; yields the
buffer after the scan and the numbers printed, in the order printed. -/
def resultExtractor (N : Nat) (list : Buffer) : Option (Buffer × List Nat) :=
  (upTo 2 (N - 1 + 1)).foldlM extractBody (list, [])

/-- Lines 63-88: initialiser, then driver, on the block `mem` returned by `malloc`. -/
def sieveBuffer (N : Nat) (mem : Buffer) : Option Buffer :=
  match initializer N mem with
  | none => none
  | some list => sieveDriver N list

/-- Lines 63-102 with `is_printing` set: the numbers printed for the block `mem`
of `N` cells returned by `malloc`. -/
def pipeline (N : Nat) (mem : Buffer) : Option (List Nat) :=
  match sieveBuffer N mem with
  | none => none
  | some list =>
    match resultExtractor N list with
    | none => none
    | some st => some st.2

/-- Some candidate `d` with `2 <= d <= k` has `i` among the cells `m > d` with
`m % d == 0`, the cells that a marker round for `d` writes. -/
def Struck (k i : Nat) : Prop :=
  ∃ d, d < k + 1 ∧ 2 ≤ d ∧ d < i ∧ i % d = 0

instance (k i : Nat) : Decidable (Struck k i) :=
  inferInstanceAs (Decidable (∃ d, d < k + 1 ∧ 2 ≤ d ∧ d < i ∧ i % d = 0))

/-- From buffer `list` to buffer `r` no mark is lost: the length is kept, every cell
holding `1` in `list` holds `1` in `r`, and every cell holding `0` in `r` already held
`0` in `list`. -/
def MarksKept (list r : Buffer) : Prop :=
  r.length = list.length ∧
    ∀ i : Nat, (list[i]? = some 1 → r[i]? = some 1) ∧ (r[i]? = some 0 → list[i]? = some 0)

/-- The sequence in which the iterations of a parallel loop run when worker `k` has
been dealt the iterations `workers[k]`, runs them in that order, and `picks` names the
worker that runs next (a pick of an idle or absent worker is skipped; when `picks` is
used up the remaining iterations run worker after worker). -/
def interleave : List Nat → List (List Nat) → List Nat
  | [], workers => workers.flatten
  | k :: picks, workers =>
    match workers[k]? with
    | some (i :: rest) => i :: interleave picks (workers.set k rest)
    | _ => interleave picks workers

/-- The driver step of lines 74-87 with the iterations of the marker round for `c`
run in the sequence `sched c`. -/
def driverBodySched (sched : Nat → List Nat) (list : Buffer) (c : Nat) : Option Buffer :=
  match readCell list c with
  | none => none
  | some v => if v = 0 then runLoop (markBody c) (sched c) list else some list

/-- Lines 63-88 with the iterations of the initialiser loop run in the sequence
`initOrder` and those of the marker round for `c` in the sequence `sched c`. -/
def sieveBufferSched (N : Nat) (initOrder : List Nat) (sched : Nat → List Nat)
    (mem : Buffer) : Option Buffer :=
  match runLoop initBody initOrder mem with
  | none => none
  | some list => (upTo 2 (sqrtN N + 1)).foldlM (driverBodySched sched) list

/-- The driver loop of lines 71-88 with the bound `sqrtN` replaced by `bound`:
`for (c = 2; c <= bound; c++)` with the same body. -/
def sweepUpTo (bound N : Nat) (list : Buffer) : Option Buffer :=
  (upTo 2 (bound + 1)).foldlM (driverBody N) list

/-- Follows the spec's words, not the source: the cells `2c, 3c, 4c, ...` below `N`,
in the order in which the classical stride `m = 2c; m < N; m += c` visits them. -/
def strideCells (N c : Nat) : List Nat :=
  ((upTo 2 N).map (fun k => k * c)).filter (fun m => decide (m < N))

/-- Follows the spec's words, not the source: the classical stride marking of the
Sieve of Eratosthenes, which stores `1` in each of the cells `2c, 3c, 4c, ...`
below `N` and looks at no other cell. -/
def strideMarker (N c : Nat) (list : Buffer) : Option Buffer :=
  runLoop (fun l m => writeCell l m 1) (strideCells N c) list

/-- The driver step of lines 74-87 on the pair of the buffer and the list of the
candidates for which the marker round has been run so far. -/
def driverBodyLog (N : Nat) (st : Buffer × List Nat) (c : Nat) :
    Option (Buffer × List Nat) :=
  match readCell st.1 c with
  | none => none
  | some v =>
    if v = 0 then
      match parallelMarker N c st.1 with
      | none => none
      | some r => some (r, st.2 ++ [c])
    else some st

/-- The driver loop of lines 71-88 that also returns the candidates, in order, for
which it ran the marker round. -/
def sieveDriverLog (N : Nat) (list : Buffer) : Option (Buffer × List Nat) :=
  (upTo 2 (sqrtN N + 1)).foldlM (driverBodyLog N) (list, [])

/-! ### The program around the sieve: options, allocation, output -/

/-- What one call of `getopt(argc, argv, "n:o")` returns before it returns `-1`:
the option `n` with its argument `optarg`, the option `o`, or `?` for an option it
does not accept (an unknown letter, or `-n` without argument).  In the last case
`getopt` itself first writes a diagnostic `diag` on the error stream, since the
program leaves `opterr` set and the option string does not begin with a colon.
`getopt` is the C library's; the run is given the sequence of its answers. -/
inductive Opt where
  | n (optarg : String)
  | o
  | other (diag : String)
  deriving DecidableEq

/-- The test `isspace` of the C locale: space, `\t`, `\n`, `\v`, `\f`, `\r`. -/
def isSpaceC (ch : Char) : Bool :=
  ch.toNat = 32 || (9 ≤ ch.toNat && ch.toNat ≤ 13)

/-- The value of the longest prefix of decimal digits of `cs`, continuing from `acc`. -/
def digitsVal : Nat → List Char → Nat
  | acc, [] => acc
  | acc, ch :: rest =>
    if 48 ≤ ch.toNat ∧ ch.toNat ≤ 57 then digitsVal (acc * 10 + (ch.toNat - 48)) rest
    else acc

/-- The number that `atoi` reads: leading white space is skipped, then an optional
sign (`-` is character 45, `+` is 43) and the longest run of decimal digits; no
digits give `0`. -/
def atoiChars (cs : List Char) : Int :=
  match cs.dropWhile isSpaceC with
  | [] => 0
  | ch :: rest =>
    if ch.toNat = 45 then - (digitsVal 0 rest : Int)
    else if ch.toNat = 43 then (digitsVal 0 rest : Int)
    else (digitsVal 0 (ch :: rest) : Int)

/-- The C library's `atoi(optarg)`; the behaviour is undefined (`none`) when the
number read is not representable as an `int`. -/
def atoi (s : String) : Option Int :=
  if -2147483648 ≤ atoiChars s.data ∧ atoiChars s.data ≤ 2147483647 then
    some (atoiChars s.data)
  else none

/-- How the option loop of lines 34-51 ends: it falls through to line 52 with the
values of `N` and `is_printing`, or, after the diagnostic `diag` of `getopt`, it
prints the usage text and exits (lines 46-49), or the behaviour is undefined (`atoi`
out of range). -/
inductive Parse where
  | core (N : Int) (is_printing : Bool)
  | usage (diag : String)
  | undefined
  deriving DecidableEq

/-- Lines 34-51: the `while` loop over the answers of `getopt`, from the current
values of `N` and `is_printing`.  The answer is stored in the `char next_option`
before it is compared with `-1`; plain `char` is taken to be signed, as on x86-64, so
that the `-1` of `getopt` ends the loop. -/
def getoptLoop : Int → Bool → List Opt → Parse
  | N, is_printing, [] => Parse.core N is_printing
  | _, is_printing, Opt.n optarg :: rest =>
    match atoi optarg with
    | none => Parse.undefined
    | some v => getoptLoop v is_printing rest
  | N, _, Opt.o :: rest => getoptLoop N true rest
  | _, _, Opt.other diag :: _ => Parse.usage diag

/-- Every answer of `getopt` in `opts` is `o`, or `n` with an argument from which
`atoi` reads a number that fits an `int`. -/
def Readable (opts : List Opt) : Prop :=
  ∀ x, x ∈ opts → x = Opt.o ∨ ∃ optarg v, x = Opt.n optarg ∧ atoi optarg = some v

/-- One thing the run writes: a text on the error stream, a text on the output
stream, or the line `Runtime: %f seconds` (line 107), whose number is a wall-clock
measurement and is not modelled. -/
inductive Event where
  | err (text : String)
  | out (text : String)
  | runtime
  deriving DecidableEq

/-- The exit status of the process and what it wrote, in order. -/
structure Outcome where
  status : Nat
  events : List Event
  deriving DecidableEq

/-- The macro `EXIT_FAILURE` of `stdlib.h`. -/
def EXIT_FAILURE : Nat := 1

/-- Lines 46-48: what `fprintf(stderr, "Usage: %s [OPTIONS]\n", ...)` writes; the
format has one `%s`, which takes the first of the two arguments. -/
def usageText : String :=
  "Usage: " ++
    ("-n N, where N is the number under which to find primes\n" ++
      "-o to print out the primes after they have been found\n") ++
    " [OPTIONS]\n"

/-- Line 60: the text written when `malloc` returns `NULL`. -/
def allocErrorText : String :=
  "Error: Failed to allocate memory for list.\n"

/-- Lines 98 and 101: one `printf("%d ", c)` for each number found, in order, then
`printf("\n")`. -/
def printEvents (found : List Nat) : List Event :=
  found.map (fun c => Event.out (Nat.repr c ++ " ")) ++ [Event.out "\n"]

/-- The text on the output stream apart from the runtime line: the texts of the
`out` events, joined in order. -/
def outText : List Event → String
  | [] => ""
  | Event.out text :: rest => text ++ outText rest
  | _ :: rest => outText rest

/-- Follows the spec's words, not the source: the numbers in decimal, separated by
single spaces, followed by a single newline. -/
def separatedLine (found : List Nat) : String :=
  " ".intercalate (found.map Nat.repr) ++ "\n"

/-- Lines 52-109, after the option loop: `malloc` has answered `alloc` (`none` for
`NULL`, otherwise the block with the contents it happens to hold).  For `N < 2` no
loop body runs.  For `N < 0` the square root of line 52 is not a number and its
conversion to `int` has no specified value, so a run that is given a block then is not
modelled.  The result is `none` when the run is not modelled or a step has undefined
behaviour. -/
def runCore (N : Int) (is_printing : Bool) (alloc : Option Buffer) : Option Outcome :=
  match alloc with
  | none => some ⟨EXIT_FAILURE, [Event.err allocErrorText]⟩
  | some mem =>
    if N < 0 then none
    else
      match sieveBuffer N.toNat mem with
      | none => none
      | some list =>
        if is_printing then
          match resultExtractor N.toNat list with
          | none => none
          | some st => some ⟨0, printEvents st.2 ++ [Event.runtime]⟩
        else some ⟨0, [Event.runtime]⟩

/-- The function `main` of `sieve.c`: `opts` are the answers of `getopt`, `malloc N`
is the answer of `malloc(N * sizeof(int))`.  When `getopt` does not accept an option,
the error stream holds the diagnostic of `getopt` followed by the usage text. -/
def sieveMain (opts : List Opt) (malloc : Int → Option Buffer) : Option Outcome :=
  match getoptLoop 16 false opts with
  | Parse.undefined => none
  | Parse.usage diag => some ⟨EXIT_FAILURE, [Event.err diag, Event.err usageText]⟩
  | Parse.core N is_printing => runCore N is_printing (malloc N)

/-! ### The loops with `int` counters -/

/-- The value an `int` takes when the exact result `x` of an operation is reduced
modulo `2^32` into the range `-2^31 .. 2^31 - 1`. -/
def wrap32 (x : Int) : Int :=
  (x + 2147483648) % 4294967296 - 2147483648

/-- What a run is allowed to do: `arith x` is the `int` delivered by an arithmetic
operation whose exact result is `x` (`none` when the operation is not let through),
`index i` says whether a subscript `i` is let through, `divisor c` whether a divisor
`c` is. -/
structure Machine where
  arith : Int → Option Int
  index : Int → Bool
  divisor : Int → Bool

/-- Exact integers, every subscript inside the block and every divisor but `0`. -/
def exactMachine : Machine :=
  ⟨fun x => some x, fun _ => true, fun _ => true⟩

/-- Arithmetic of 32-bit `int`s that wraps around. -/
def wrapMachine : Machine :=
  ⟨fun x => some (wrap32 x), fun _ => true, fun _ => true⟩

/-- A run that stops as failed as soon as an arithmetic result leaves `0 .. N`. -/
def rangeMachine (N : Nat) : Machine :=
  ⟨fun x => if 0 ≤ x ∧ x ≤ (N : Int) then some x else none, fun _ => true, fun _ => true⟩

/-- A run with exact integers that stops as failed as soon as a subscript leaves
`2 .. N-1` or a divisor is less than `2`. -/
def boundsMachine (N : Nat) : Machine :=
  ⟨fun x => some x, fun i => decide (2 ≤ i ∧ i < (N : Int)), fun c => decide (2 ≤ c)⟩

/-- The rvalue `list[i]` for an `int` subscript. -/
def readCellM (g : Machine) (list : Buffer) (i : Int) : Option Int :=
  if g.index i = true ∧ 0 ≤ i then readCell list i.toNat else none

/-- The assignment `list[i] = v` for an `int` subscript. -/
def writeCellM (g : Machine) (list : Buffer) (i : Int) (v : Int) : Option Buffer :=
  if g.index i = true ∧ 0 ≤ i then writeCell list i.toNat v else none

/-- The expression `m % c` on `int`s (the remainder of the division that truncates). -/
def cModM (g : Machine) (m c : Int) : Option Int :=
  if c = 0 ∨ g.divisor c = false then none else some (Int.tmod m c)

/-- The statement `for (i = start; cond; i++) body`, from the counter value `i` and
the state `s`, with at most `fuel` evaluations of the condition (`none` when they do
not suffice, or when a step fails). -/
def forLoop {σ : Type} (g : Machine) (cond : Int → Option Bool)
    (body : σ → Int → Option σ) : Nat → Int → σ → Option σ
  | 0, _, _ => none
  | fuel + 1, i, s =>
    match cond i with
    | none => none
    | some false => some s
    | some true =>
      match body s i with
      | none => none
      | some s2 =>
        match g.arith (i + 1) with
        | none => none
        | some j => forLoop g cond body fuel j s2

/-- Lines 65-69 with `int` counters. -/
def initializerM (g : Machine) (N : Nat) (fuel : Nat) (list : Buffer) : Option Buffer :=
  forLoop g (fun c => some (decide (c < (N : Int)))) (fun l c => writeCellM g l c 0)
    fuel 2 list

/-- Lines 81-85 with `int` counters. -/
def markBodyM (g : Machine) (c : Int) (list : Buffer) (m : Int) : Option Buffer :=
  match cModM g m c with
  | none => none
  | some r => if r = 0 then writeCellM g list m 1 else some list

/-- Lines 74-87 with `int` counters; the inner loop starts at `c+1`. -/
def driverBodyM (g : Machine) (N : Nat) (fuel : Nat) (list : Buffer) (c : Int) :
    Option Buffer :=
  match readCellM g list c with
  | none => none
  | some v =>
    if v = 0 then
      match g.arith (c + 1) with
      | none => none
      | some m0 =>
        forLoop g (fun m => some (decide (m < (N : Int)))) (markBodyM g c) fuel m0 list
    else some list

/-- Lines 71-88 with `int` counters. -/
def sieveDriverM (g : Machine) (N : Nat) (fuel : Nat) (list : Buffer) : Option Buffer :=
  forLoop g (fun c => some (decide (c ≤ (sqrtN N : Int)))) (driverBodyM g N fuel)
    fuel 2 list

/-- Lines 95-99 with `int` counters. -/
def extractBodyM (g : Machine) (st : Buffer × List Int) (c : Int) :
    Option (Buffer × List Int) :=
  match readCellM g st.1 c with
  | none => none
  | some v => if v = 0 then some (st.1, st.2 ++ [c]) else some st

/-- Lines 92-100 with `int` counters; the condition `c <= N - 1` computes `N - 1`. -/
def resultExtractorM (g : Machine) (N : Nat) (fuel : Nat) (list : Buffer) :
    Option (Buffer × List Int) :=
  forLoop g
    (fun c => match g.arith ((N : Int) - 1) with
      | none => none
      | some b => some (decide (c ≤ b)))
    (extractBodyM g) fuel 2 (list, [])

/-- Lines 63-102 with `int` counters and `is_printing` set: the numbers printed. -/
def pipelineM (g : Machine) (N : Nat) (fuel : Nat) (mem : Buffer) : Option (List Int) :=
  match initializerM g N fuel mem with
  | none => none
  | some l0 =>
    match sieveDriverM g N fuel l0 with
    | none => none
    | some list =>
      match resultExtractorM g N fuel list with
      | none => none
      | some st => some st.2

/-- The machine `g` lets through everything a run on `N` needs when nothing
overflows and no access is out of bounds: arithmetic results in `0 .. N` come out
exact, subscripts in `2 .. N-1` and divisors from `2` on are accepted. -/
def Admits (g : Machine) (N : Nat) : Prop :=
  (∀ x : Nat, x ≤ N → g.arith (x : Int) = some (x : Int)) ∧
  (∀ i : Nat, 2 ≤ i → i < N → g.index (i : Int) = true) ∧
  (∀ c : Nat, 2 ≤ c → g.divisor (c : Int) = true)

/-! ### The square root in binary64 -/

/-- The `k` with `4^k <= N < 4^(k+1)` for `1 <= N < 4^17`, so that
`2^k <= sqrt N < 2^(k+1)`: the binary exponent of the square root of an `int`. -/
def log4 (N : Nat) : Nat :=
  Nat.findGreatest (fun k => 4 ^ k ≤ N) 16

/-- The expression `(int)sqrt(N)` of line 52 for an `int` `N >= 1`, with `sqrt` the
correctly rounded square root of IEEE 754 binary64 (53 significant bits), which the C
library provides.  The conversion of `N` to `double` is exact.  With `k = log4 N` the
`double`s around the square root are the multiples of `2^(k-52)`; the square root
counted in these units is the square root of `M = N * 4^(52-k)`, and rounding it to the
nearest unit gives `s = floor (sqrt M)` when `M <= s^2 + s` and `s + 1` otherwise (a
tie cannot occur).  The conversion to `int` drops the fraction. -/
def sqrtDouble (N : Nat) : Nat :=
  let unit := 2 ^ (52 - log4 N)
  let M := N * (unit * unit)
  let s := Nat.sqrt M
  (if M ≤ s * s + s then s else s + 1) / unit

/-! ## Basic facts about the memory operations and the loop bounds -/

theorem mem_upTo (a b j : Nat) : j ∈ upTo a b ↔ a ≤ j ∧ j < b := by
  unfold upTo
  rw [List.mem_range'_1]
  omega

theorem upTo_succ (a b : Nat) (h : a ≤ b) : upTo a (b + 1) = upTo a b ++ [b] := by
  unfold upTo
  have e : b + 1 - a = (b - a) + 1 := by omega
  rw [e, List.range'_concat]
  congr 2
  omega

theorem upTo_self (a : Nat) : upTo a a = [] := by
  simp [upTo]

theorem sqrtN_sq_le (N : Nat) : sqrtN N * sqrtN N ≤ N := by
  unfold sqrtN
  exact Nat.findGreatest_spec (P := fun s => s * s ≤ N) (Nat.zero_le N) (by simp)

theorem sqrtN_lt_succ_sq (N : Nat) : N < (sqrtN N + 1) * (sqrtN N + 1) := by
  by_contra hcon
  have hle : (sqrtN N + 1) * (sqrtN N + 1) ≤ N := Nat.le_of_not_lt hcon
  have hb : sqrtN N + 1 ≤ N := by nlinarith
  have hlt : Nat.findGreatest (fun s => s * s ≤ N) N < sqrtN N + 1 := by
    unfold sqrtN
    exact Nat.lt_succ_self _
  exact Nat.findGreatest_is_greatest hlt hb hle

theorem sqrtN_eq_sqrt (N : Nat) : sqrtN N = Nat.sqrt N := by
  exact Nat.eq_sqrt.mpr ⟨sqrtN_sq_le N, sqrtN_lt_succ_sq N⟩

theorem sqrtN_lt (N : Nat) (h : 2 ≤ N) : sqrtN N < N := by
  have h1 := sqrtN_sq_le N
  by_contra hcon
  have h2 : N ≤ sqrtN N := Nat.le_of_not_lt hcon
  nlinarith

theorem le_sqrtN_of_sq_lt (N d : Nat) (h : d * d ≤ N) : d ≤ sqrtN N := by
  have h1 := sqrtN_lt_succ_sq N
  by_contra hcon
  have h2 : sqrtN N + 1 ≤ d := by omega
  nlinarith

theorem writeCell_eq (list : Buffer) (i : Nat) (v : Int) (h : i < list.length) :
    writeCell list i v = some (list.set i v) := by
  simp [writeCell, h]

theorem readCell_eq (list : Buffer) (i : Nat) (h : i < list.length) :
    readCell list i = some (list.get ⟨i, h⟩) := by
  simp [readCell, List.getElem?_eq_getElem h]

theorem runLoop_nil (body : Buffer → Nat → Option Buffer) (list : Buffer) :
    runLoop body [] list = some list := rfl

theorem runLoop_cons (body : Buffer → Nat → Option Buffer) (i : Nat) (rest : List Nat)
    (list : Buffer) :
    runLoop body (i :: rest) list = (body list i).bind (fun l => runLoop body rest l) := by
  simp [runLoop, List.foldlM_cons]

/-! ## Loops of guarded writes

Both parallel loops have a body of the shape "when `p i` holds, store `v` in cell
`i`".  Run in any sequence `order`, such a loop stores `v` in the cells `i` of
`order` with `p i` and touches nothing else. -/

theorem runLoop_guarded (p : Nat → Prop) [DecidablePred p] (v : Int)
    (body : Buffer → Nat → Option Buffer)
    (hbody : ∀ l i, body l i = if p i then writeCell l i v else some l)
    (order : List Nat) (list : Buffer)
    (hb : ∀ i, i ∈ order → p i → i < list.length) :
    ∃ r, runLoop body order list = some r ∧ r.length = list.length ∧
      ∀ j, r[j]? = if j ∈ order ∧ p j then some v else list[j]? := by
  induction order generalizing list with
  | nil => exact ⟨list, rfl, rfl, by simp⟩
  | cons i rest ih =>
    rw [runLoop_cons, hbody]
    by_cases hp : p i
    · have hi : i < list.length := hb i (List.mem_cons_self i rest) hp
      have hb2 : ∀ k, k ∈ rest → p k → k < (list.set i v).length := by
        intro k hk hpk
        rw [List.length_set]
        exact hb k (List.mem_cons_of_mem i hk) hpk
      obtain ⟨r, hr, hlen, hget⟩ := ih (list.set i v) hb2
      refine ⟨r, ?_, ?_, ?_⟩
      · simp [hp, writeCell_eq list i v hi, hr]
      · rw [hlen, List.length_set]
      · intro j
        rw [hget j, List.getElem?_set]
        by_cases hj : i = j
        · subst hj
          simp [hp, hi]
        · have hj2 : ¬ j = i := fun e => hj e.symm
          simp [hj, hj2]
    · have hb2 : ∀ k, k ∈ rest → p k → k < list.length := fun k hk hpk =>
        hb k (List.mem_cons_of_mem i hk) hpk
      obtain ⟨r, hr, hlen, hget⟩ := ih list hb2
      refine ⟨r, ?_, hlen, ?_⟩
      · simp [hp, hr]
      · intro j
        rw [hget j]
        by_cases hj : j = i
        · subst hj
          simp [hp]
        · simp [hj]

theorem initBody_guarded (l : Buffer) (i : Nat) :
    initBody l i = if True then writeCell l i 0 else some l := by
  simp [initBody]

theorem markBody_guarded (c : Nat) (hc : c ≠ 0) (l : Buffer) (m : Nat) :
    markBody c l m = if m % c = 0 then writeCell l m 1 else some l := by
  simp [markBody, cMod, hc]

/-- The initialiser loop run in any sequence `order` of in-bounds indices. -/
theorem runLoop_init (order : List Nat) (list : Buffer)
    (hb : ∀ i, i ∈ order → i < list.length) :
    ∃ r, runLoop initBody order list = some r ∧ r.length = list.length ∧
      ∀ j, r[j]? = if j ∈ order then some 0 else list[j]? := by
  obtain ⟨r, h1, h2, h3⟩ := runLoop_guarded (fun _ => True) 0 initBody initBody_guarded
    order list (fun i hi _ => hb i hi)
  exact ⟨r, h1, h2, fun j => by simpa using h3 j⟩

/-- One marker round run in any sequence `order` of in-bounds indices. -/
theorem runLoop_mark (c : Nat) (hc : c ≠ 0) (order : List Nat) (list : Buffer)
    (hb : ∀ i, i ∈ order → i < list.length) :
    ∃ r, runLoop (markBody c) order list = some r ∧ r.length = list.length ∧
      ∀ j, r[j]? = if j ∈ order ∧ j % c = 0 then some 1 else list[j]? :=
  runLoop_guarded (fun m => m % c = 0) 1 (markBody c) (markBody_guarded c hc)
    order list (fun i hi _ => hb i hi)

theorem initializer_spec (N : Nat) (mem : Buffer) (hlen : mem.length = N) :
    ∃ r, initializer N mem = some r ∧ r.length = N ∧
      ∀ j, r[j]? = if 2 ≤ j ∧ j < N then some 0 else mem[j]? := by
  obtain ⟨r, h1, h2, h3⟩ := runLoop_init (upTo 2 N) mem
    (fun i hi => by rw [mem_upTo] at hi; omega)
  refine ⟨r, h1, by omega, fun j => ?_⟩
  rw [h3 j]
  simp only [mem_upTo]

theorem parallelMarker_spec (N c : Nat) (hc : c ≠ 0) (list : Buffer) (hlen : list.length = N) :
    ∃ r, parallelMarker N c list = some r ∧ r.length = N ∧
      ∀ j, r[j]? = if (c < j ∧ j < N) ∧ j % c = 0 then some 1 else list[j]? := by
  obtain ⟨r, h1, h2, h3⟩ := runLoop_mark c hc (upTo (c + 1) N) list
    (fun i hi => by rw [mem_upTo] at hi; omega)
  refine ⟨r, h1, by omega, fun j => ?_⟩
  rw [h3 j]
  simp only [mem_upTo]
  rfl

/-! ## The driver sweep -/

theorem struck_one (j : Nat) : ¬ Struck 1 j := by
  rintro ⟨d, h1, h2, _, _⟩
  omega

theorem struck_mono (k j : Nat) (h : Struck k j) : Struck (k + 1) j := by
  obtain ⟨d, h1, h2, h3, h4⟩ := h
  exact ⟨d, by omega, h2, h3, h4⟩

theorem struck_succ (k j : Nat) :
    Struck (k + 1) j ↔ Struck k j ∨ (2 ≤ k + 1 ∧ k + 1 < j ∧ j % (k + 1) = 0) := by
  constructor
  · rintro ⟨d, h1, h2, h3, h4⟩
    by_cases hd : d = k + 1
    · subst hd
      exact Or.inr ⟨h2, h3, h4⟩
    · exact Or.inl ⟨d, by omega, h2, h3, h4⟩
  · rintro (h | ⟨h2, h3, h4⟩)
    · exact struck_mono k j h
    · exact ⟨k + 1, by omega, h2, h3, h4⟩

theorem struck_of_dvd (k c j : Nat) (h : Struck k c) (hlt : c < j) (hdvd : j % c = 0) :
    Struck k j := by
  obtain ⟨d, h1, h2, h3, h4⟩ := h
  refine ⟨d, h1, h2, by omega, ?_⟩
  have e1 : d ∣ c := Nat.dvd_of_mod_eq_zero h4
  have e2 : c ∣ j := Nat.dvd_of_mod_eq_zero hdvd
  exact Nat.mod_eq_zero_of_dvd (Nat.dvd_trans e1 e2)

theorem struck_sqrtN_iff (N j : Nat) (h2 : 2 ≤ j) (hN : j < N) :
    Struck (sqrtN N) j ↔ ¬ Nat.Prime j := by
  constructor
  · rintro ⟨d, _, hd2, hd3, hd4⟩ hp
    have hdvd : d ∣ j := Nat.dvd_of_mod_eq_zero hd4
    rcases (Nat.dvd_prime hp).mp hdvd with e | e <;> omega
  · intro hnp
    have hne : j ≠ 1 := by omega
    have hmp : Nat.Prime (Nat.minFac j) := Nat.minFac_prime hne
    have hsq : Nat.minFac j * Nat.minFac j ≤ j := by
      have := Nat.minFac_sq_le_self (by omega : 0 < j) hnp
      nlinarith
    have hle : Nat.minFac j ≤ sqrtN N := le_sqrtN_of_sq_lt N _ (by omega)
    have hlt : Nat.minFac j < j := by
      rcases Nat.lt_or_ge (Nat.minFac j) j with h | h
      · exact h
      · have h1 : Nat.minFac j ≤ j := Nat.minFac_le (by omega)
        have h3 : Nat.minFac j = j := by omega
        exact absurd (h3 ▸ hmp) hnp
    exact ⟨Nat.minFac j, by omega, hmp.two_le, hlt,
      Nat.mod_eq_zero_of_dvd (Nat.minFac_dvd j)⟩

theorem foldlM_single {β : Type} (f : β → Nat → Option β) (b : β) (i : Nat) :
    [i].foldlM f b = f b i := by
  simp [List.foldlM_cons]

/-- The state of the buffer once the sweep has handled the candidates `2 .. k`. -/
theorem driver_prefix (N : Nat) (list : Buffer) (hlen : list.length = N)
    (h0 : ∀ j, 2 ≤ j → j < N → list[j]? = some 0) (k : Nat) (hk1 : 1 ≤ k) (hkN : k < N) :
    ∃ r, (upTo 2 (k + 1)).foldlM (driverBody N) list = some r ∧ r.length = N ∧
      ∀ j, r[j]? = if 2 ≤ j ∧ j < N then (if Struck k j then some 1 else some 0)
        else list[j]? := by
  induction k with
  | zero => omega
  | succ k ih =>
    by_cases hk : k = 0
    · subst hk
      refine ⟨list, by simp [upTo], hlen, fun j => ?_⟩
      by_cases hj : 2 ≤ j ∧ j < N
      · simp [hj, struck_one, h0 j hj.1 hj.2]
      · simp [hj]
    · obtain ⟨r, hr, hrlen, hget⟩ := ih (by omega) (by omega)
      have hc : k + 1 < r.length := by omega
      rw [upTo_succ 2 (k + 1) (by omega), List.foldlM_append, hr]
      simp only [Option.bind_eq_bind, Option.some_bind, foldlM_single]
      have hread : readCell r (k + 1) = if Struck k (k + 1) then some 1 else some 0 := by
        unfold readCell
        rw [hget (k + 1)]
        simp [show 2 ≤ k + 1 by omega, hkN]
      unfold driverBody
      rw [hread]
      by_cases hs : Struck k (k + 1)
      · refine ⟨r, by simp [hs], hrlen, fun j => ?_⟩
        rw [hget j]
        by_cases hj : 2 ≤ j ∧ j < N
        · have e : Struck (k + 1) j ↔ Struck k j := by
            rw [struck_succ]
            constructor
            · rintro (h | ⟨_, h3, h4⟩)
              · exact h
              · exact struck_of_dvd k (k + 1) j hs h3 h4
            · exact Or.inl
          simp [hj, e]
        · simp [hj]
      · obtain ⟨r2, hr2, hr2len, hget2⟩ := parallelMarker_spec N (k + 1) (by omega) r hrlen
        refine ⟨r2, by simp [hs, hr2], hr2len, fun j => ?_⟩
        rw [hget2 j, hget j]
        by_cases hj : 2 ≤ j ∧ j < N
        · by_cases hm : (k + 1 < j ∧ j < N) ∧ j % (k + 1) = 0
          · have e : Struck (k + 1) j := (struck_succ k j).mpr (Or.inr ⟨by omega, hm.1.1, hm.2⟩)
            simp [hj, hm, e]
          · have e : Struck (k + 1) j ↔ Struck k j := by
              rw [struck_succ]
              constructor
              · rintro (h | ⟨_, h3, h4⟩)
                · exact h
                · exact absurd ⟨⟨h3, hj.2⟩, h4⟩ hm
              · exact Or.inl
            rw [if_neg hm]
            simp [hj, e]
        · have hm : ¬ ((k + 1 < j ∧ j < N) ∧ j % (k + 1) = 0) := by
            rintro ⟨⟨h3, h5⟩, _⟩
            exact hj ⟨by omega, h5⟩
          rw [if_neg hm, if_neg hj, if_neg hj]

/-- The driver on a buffer whose cells `2 .. N-1` are all `0`: afterwards cell `j`
of `2 .. N-1` holds `0` for a prime `j` and `1` otherwise, the rest is untouched. -/
theorem sieveDriver_spec (N : Nat) (hN : 2 ≤ N) (list : Buffer) (hlen : list.length = N)
    (h0 : ∀ j, 2 ≤ j → j < N → list[j]? = some 0) :
    ∃ r, sieveDriver N list = some r ∧ r.length = N ∧
      ∀ j, r[j]? = if 2 ≤ j ∧ j < N then (if Nat.Prime j then some 0 else some 1)
        else list[j]? := by
  have hk1 : 1 ≤ sqrtN N := le_sqrtN_of_sq_lt N 1 (by omega)
  obtain ⟨r, hr, hrlen, hget⟩ := driver_prefix N list hlen h0 (sqrtN N) hk1 (sqrtN_lt N hN)
  refine ⟨r, hr, hrlen, fun j => ?_⟩
  rw [hget j]
  by_cases hj : 2 ≤ j ∧ j < N
  · by_cases hp : Nat.Prime j
    · have e : ¬ Struck (sqrtN N) j := fun h => (struck_sqrtN_iff N j hj.1 hj.2).mp h hp
      simp [hj, hp, e]
    · have e : Struck (sqrtN N) j := (struck_sqrtN_iff N j hj.1 hj.2).mpr hp
      simp [hj, hp, e]
  · simp [hj]

/-- The buffer after initialiser and driver: cell `j` of `2 .. N-1` holds `0` for a
prime `j` and `1` otherwise; cells `0` and `1` still hold what `malloc` returned. -/
theorem sieveBuffer_spec (N : Nat) (hN : 2 ≤ N) (mem : Buffer) (hlen : mem.length = N) :
    ∃ r, sieveBuffer N mem = some r ∧ r.length = N ∧
      ∀ j, r[j]? = if 2 ≤ j ∧ j < N then (if Nat.Prime j then some 0 else some 1)
        else mem[j]? := by
  obtain ⟨l0, hl0, hl0len, hget0⟩ := initializer_spec N mem hlen
  have h0 : ∀ j, 2 ≤ j → j < N → l0[j]? = some 0 := by
    intro j h1 h2
    rw [hget0 j]
    simp [h1, h2]
  obtain ⟨r, hr, hrlen, hget⟩ := sieveDriver_spec N hN l0 hl0len h0
  refine ⟨r, ?_, hrlen, fun j => ?_⟩
  · simp only [sieveBuffer, hl0]
    exact hr
  · rw [hget j, hget0 j]
    by_cases hj : 2 ≤ j ∧ j < N
    · simp [hj]
    · simp [hj]

/-! ## The extractor scan -/

/-- The scan over any sequence of in-bounds indices appends to the output, in the
order visited, the indices whose cell is `0`, and hands the buffer on as it was. -/
theorem extract_loop (order : List Nat) (list : Buffer) (out : List Nat)
    (hb : ∀ i, i ∈ order → i < list.length) :
    order.foldlM extractBody (list, out) =
      some (list, out ++ order.filter (fun i => decide (list[i]? = some 0))) := by
  induction order generalizing out with
  | nil => simp
  | cons i rest ih =>
    have hi : i < list.length := hb i (List.mem_cons_self i rest)
    have hrest : ∀ k, k ∈ rest → k < list.length := fun k hk =>
      hb k (List.mem_cons_of_mem i hk)
    rw [List.foldlM_cons]
    have hread : readCell list i = some (list.get ⟨i, hi⟩) := readCell_eq list i hi
    by_cases hv : list.get ⟨i, hi⟩ = 0
    · have hstep : extractBody (list, out) i = some (list, out ++ [i]) := by
        simp only [extractBody, hread, hv, if_true]
      rw [hstep]
      simp only [Option.bind_eq_bind, Option.some_bind]
      rw [ih (out ++ [i]) hrest]
      have hv2 : list[i]? = some 0 := by
        rw [List.getElem?_eq_getElem hi]
        exact congrArg some hv
      simp [List.filter_cons, hv2]
    · have hstep : extractBody (list, out) i = some (list, out) := by
        simp only [extractBody, hread, hv, if_false]
      rw [hstep]
      simp only [Option.bind_eq_bind, Option.some_bind]
      rw [ih out hrest]
      have hv2 : ¬ list[i]? = some 0 := by
        rw [List.getElem?_eq_getElem hi]
        exact fun h => hv (Option.some.inj h)
      simp [List.filter_cons, hv2]

theorem resultExtractor_spec (N : Nat) (list : Buffer) (hlen : list.length = N) :
    resultExtractor N list =
      some (list, (upTo 2 N).filter (fun i => decide (list[i]? = some 0))) := by
  have e : upTo 2 (N - 1 + 1) = upTo 2 N := by
    have e2 : N - 1 + 1 - 2 = N - 2 := by omega
    unfold upTo
    rw [e2]
  unfold resultExtractor
  rw [e, extract_loop (upTo 2 N) list [] (fun i hi => by rw [mem_upTo] at hi; omega)]
  rfl

/-- The numbers printed by a run on `N >= 2`: the primes among `2 .. N-1`, ascending. -/
theorem pipeline_eq (N : Nat) (hN : 2 ≤ N) (mem : Buffer) (hlen : mem.length = N) :
    pipeline N mem = some ((upTo 2 N).filter (fun i => decide (Nat.Prime i))) := by
  obtain ⟨r, hr, hrlen, hget⟩ := sieveBuffer_spec N hN mem hlen
  unfold pipeline
  rw [hr]
  simp only [resultExtractor_spec N r hrlen]
  congr 1
  apply List.filter_congr
  intro i hi
  rw [mem_upTo] at hi
  rw [hget i]
  by_cases hp : Nat.Prime i
  · simp [hi, hp]
  · simp [hi, hp]

theorem pairwise_upTo_filter (a b : Nat) (p : Nat → Bool) :
    ((upTo a b).filter p).Pairwise (fun x y => x < y) :=
  List.Pairwise.filter p (List.pairwise_lt_range' a (b - a))

theorem prime_iff_no_small_divisor (i : Nat) (h2 : 2 ≤ i) :
    Nat.Prime i ↔ ∀ d, 2 ≤ d → d * d ≤ i → ¬ d ∣ i := by
  rw [Nat.prime_def_le_sqrt]
  constructor
  · rintro ⟨_, h⟩ d hd hsq
    exact h d hd (Nat.le_sqrt.mpr hsq)
  · intro h
    exact ⟨h2, fun d hd hsq => h d hd (Nat.le_sqrt.mp hsq)⟩

/-! ## The contract of the pipeline and of its stages -/

/-- C1: for every `N >= 2`, whatever the allocated block holds, the full pipeline
(initialise, sweep `c = 2 .. sqrtN` with marking, extract) returns a strictly
increasing list whose members are exactly the primes `p` with `2 <= p < N`, that is
exactly the `i` in `[2, N-1]` with no divisor `d` such that `2 <= d` and `d*d <= i`. -/
theorem C1_pipeline_lists_primes (N : Nat) (hN : 2 ≤ N) (mem : Buffer)
    (hlen : mem.length = N) :
    ∃ out, pipeline N mem = some out ∧ out.Pairwise (fun x y => x < y) ∧
      (∀ p, p ∈ out ↔ (Nat.Prime p ∧ 2 ≤ p ∧ p < N)) ∧
      (∀ i, i ∈ out ↔ (2 ≤ i ∧ i ≤ N - 1 ∧ ∀ d, 2 ≤ d → d * d ≤ i → ¬ d ∣ i)) := by
  refine ⟨_, pipeline_eq N hN mem hlen, pairwise_upTo_filter 2 N _, fun p => ?_, fun i => ?_⟩
  · simp only [List.mem_filter, mem_upTo, decide_eq_true_eq]
    tauto
  · simp only [List.mem_filter, mem_upTo, decide_eq_true_eq]
    constructor
    · rintro ⟨⟨h2, h3⟩, hp⟩
      exact ⟨h2, by omega, (prime_iff_no_small_divisor i h2).mp hp⟩
    · rintro ⟨h2, h3, hd⟩
      exact ⟨⟨h2, by omega⟩, (prime_iff_no_small_divisor i h2).mpr hd⟩

theorem C1_pipeline_lists_primes_witness :
    ∃ out, pipeline 10 [5, -3, 8, 1, 1, 0, 4, 1, 0, 2] = some out ∧
      out.Pairwise (fun x y => x < y) ∧
      (∀ p, p ∈ out ↔ (Nat.Prime p ∧ 2 ≤ p ∧ p < 10)) ∧
      (∀ i, i ∈ out ↔ (2 ≤ i ∧ i ≤ 10 - 1 ∧ ∀ d, 2 ≤ d → d * d ≤ i → ¬ d ∣ i)) :=
  C1_pipeline_lists_primes 10 (by decide) [5, -3, 8, 1, 1, 0, 4, 1, 0, 2] rfl

theorem composite_iff_not_prime (i : Nat) (h2 : 2 ≤ i) :
    ¬ Nat.Prime i ↔ ∃ a b, 2 ≤ a ∧ 2 ≤ b ∧ a * b = i := by
  rw [Nat.not_prime_iff_exists_dvd_lt h2]
  constructor
  · rintro ⟨a, ⟨b, rfl⟩, ha, hlt⟩
    refine ⟨a, b, ha, ?_, rfl⟩
    by_contra hb
    have hb1 : b ≤ 1 := by omega
    have : a * b ≤ a * 1 := Nat.mul_le_mul_left a hb1
    omega
  · rintro ⟨a, b, ha, hb, rfl⟩
    refine ⟨a, Dvd.intro b rfl, ha, ?_⟩
    have : a * 2 ≤ a * b := Nat.mul_le_mul_left a hb
    omega

theorem cell_iff_of_spec (r : Buffer) (i : Nat) (h2 : 2 ≤ i)
    (hget : r[i]? = if Nat.Prime i then some 0 else some 1) :
    (r[i]? = some 1 ↔ ¬ Nat.Prime i) ∧
    (r[i]? = some 1 ↔ ∃ a b, 2 ≤ a ∧ 2 ≤ b ∧ a * b = i) ∧
    (r[i]? = some 0 ↔ Nat.Prime i) := by
  rw [← composite_iff_not_prime i h2, hget]
  by_cases hp : Nat.Prime i
  · simp [hp]
  · simp [hp]

/-- C2: for every `N >= 2`, the initialiser followed by the driver loop completes on
every allocated block of `N` cells, and so does the driver loop on every buffer of
length `N` whose cells `2 .. N-1` are unmarked; afterwards every cell `i` with
`2 <= i < N` holds `1` if and only if `i` is composite (not prime, that is a product
of two factors `>= 2`) and holds `0` if and only if `i` is prime. -/
theorem C2_driver_marks_composites (N : Nat) (hN : 2 ≤ N) (mem : Buffer)
    (hlen : mem.length = N) :
    (∃ r, sieveBuffer N mem = some r ∧ r.length = N ∧
      ∀ i, 2 ≤ i → i < N →
        (r[i]? = some 1 ↔ ¬ Nat.Prime i) ∧
        (r[i]? = some 1 ↔ ∃ a b, 2 ≤ a ∧ 2 ≤ b ∧ a * b = i) ∧
        (r[i]? = some 0 ↔ Nat.Prime i)) ∧
    (∀ list : Buffer, list.length = N → (∀ j, 2 ≤ j → j < N → list[j]? = some 0) →
      ∃ r, sieveDriver N list = some r ∧ r.length = N ∧
        ∀ i, 2 ≤ i → i < N →
          (r[i]? = some 1 ↔ ¬ Nat.Prime i) ∧
          (r[i]? = some 1 ↔ ∃ a b, 2 ≤ a ∧ 2 ≤ b ∧ a * b = i) ∧
          (r[i]? = some 0 ↔ Nat.Prime i)) := by
  constructor
  · obtain ⟨r, hr, hrlen, hget⟩ := sieveBuffer_spec N hN mem hlen
    refine ⟨r, hr, hrlen, fun i h2 h3 => ?_⟩
    have e := hget i
    rw [if_pos ⟨h2, h3⟩] at e
    exact cell_iff_of_spec r i h2 e
  · intro list hl h0
    obtain ⟨r, hr, hrlen, hget⟩ := sieveDriver_spec N hN list hl h0
    refine ⟨r, hr, hrlen, fun i h2 h3 => ?_⟩
    have e := hget i
    rw [if_pos ⟨h2, h3⟩] at e
    exact cell_iff_of_spec r i h2 e

theorem C2_driver_marks_composites_witness :
    (∃ r, sieveBuffer 10 [5, -3, 8, 1, 1, 0, 4, 1, 0, 2] = some r ∧ r.length = 10 ∧
      ∀ i, 2 ≤ i → i < 10 →
        (r[i]? = some 1 ↔ ¬ Nat.Prime i) ∧
        (r[i]? = some 1 ↔ ∃ a b, 2 ≤ a ∧ 2 ≤ b ∧ a * b = i) ∧
        (r[i]? = some 0 ↔ Nat.Prime i)) ∧
    (∀ list : Buffer, list.length = 10 → (∀ j, 2 ≤ j → j < 10 → list[j]? = some 0) →
      ∃ r, sieveDriver 10 list = some r ∧ r.length = 10 ∧
        ∀ i, 2 ≤ i → i < 10 →
          (r[i]? = some 1 ↔ ¬ Nat.Prime i) ∧
          (r[i]? = some 1 ↔ ∃ a b, 2 ≤ a ∧ 2 ≤ b ∧ a * b = i) ∧
          (r[i]? = some 0 ↔ Nat.Prime i)) :=
  C2_driver_marks_composites 10 (by decide) [5, -3, 8, 1, 1, 0, 4, 1, 0, 2] rfl

/-- C3: for every candidate `c >= 2` and every buffer of length `N`, one marker round
for `c` completes and leaves a buffer of length `N` in which, for every `m < N`, cell
`m` is marked if and only if it was marked before or `c < m` and `c` divides `m`;
cell `c` and every cell that is not a strict multiple of `c` are unchanged. -/
theorem C3_marker_round (N c : Nat) (hc : 2 ≤ c) (list : Buffer) (hlen : list.length = N) :
    ∃ r, parallelMarker N c list = some r ∧ r.length = N ∧
      (∀ m, m < N → (r[m]? = some 1 ↔ (list[m]? = some 1 ∨ (c < m ∧ c ∣ m)))) ∧
      r[c]? = list[c]? ∧
      (∀ m, ¬ (c < m ∧ c ∣ m) → r[m]? = list[m]?) := by
  obtain ⟨r, hr, hrlen, hget⟩ := parallelMarker_spec N c (by omega) list hlen
  refine ⟨r, hr, hrlen, fun m hm => ?_, ?_, fun m hm => ?_⟩
  · rw [hget m]
    by_cases h : (c < m ∧ m < N) ∧ m % c = 0
    · have hd : c ∣ m := Nat.dvd_of_mod_eq_zero h.2
      simp [h, hd]
    · rw [if_neg h]
      constructor
      · exact Or.inl
      · rintro (h1 | ⟨h1, h2⟩)
        · exact h1
        · exact absurd ⟨⟨h1, hm⟩, Nat.mod_eq_zero_of_dvd h2⟩ h
  · rw [hget c]
    simp
  · rw [hget m]
    have h : ¬ ((c < m ∧ m < N) ∧ m % c = 0) := by
      rintro ⟨⟨h1, _⟩, h2⟩
      exact hm ⟨h1, Nat.dvd_of_mod_eq_zero h2⟩
    rw [if_neg h]

theorem C3_marker_round_witness :
    ∃ r, parallelMarker 10 3 [5, -3, 0, 0, 1, 0, 7, 0, 0, 0] = some r ∧ r.length = 10 ∧
      (∀ m, m < 10 → (r[m]? = some 1 ↔
        (([5, -3, 0, 0, 1, 0, 7, 0, 0, 0] : Buffer)[m]? = some 1 ∨ (3 < m ∧ 3 ∣ m)))) ∧
      r[3]? = ([5, -3, 0, 0, 1, 0, 7, 0, 0, 0] : Buffer)[3]? ∧
      (∀ m, ¬ (3 < m ∧ 3 ∣ m) → r[m]? = ([5, -3, 0, 0, 1, 0, 7, 0, 0, 0] : Buffer)[m]?) :=
  C3_marker_round 10 3 (by decide) [5, -3, 0, 0, 1, 0, 7, 0, 0, 0] rfl

/-- C4, as stated, fails: on a block of three cells holding `7, 1, 5` the initialiser
returns `7, 1, 0`, so no buffer it returns has all of the cells `0 .. 2` unmarked. -/
theorem C4_all_cells_unmarked_fails :
    initializer 3 [7, 1, 5] = some [7, 1, 0] ∧
      ¬ ∃ r, initializer 3 [7, 1, 5] = some r ∧ r.length = 3 ∧
        ∀ i, i < 3 → r[i]? = some 0 := by
  refine ⟨by decide, ?_⟩
  rintro ⟨r, hr, _, hall⟩
  have e : initializer 3 [7, 1, 5] = some [7, 1, 0] := by decide
  rw [e] at hr
  have hr2 : r = [7, 1, 0] := (Option.some.inj hr).symm
  subst hr2
  exact absurd (hall 0 (by decide)) (by decide)

/-- C4, amended: for every `N` (so for every `N >= 2`) the initialiser completes on a
block of `N` cells and returns a buffer of length `N` whose cells `2 .. N-1` all hold
`0`, whatever the allocated block held; cells `0` and `1` are not written and keep what
the allocated block held. -/
theorem C4_initializer_zeroes_from_two (N : Nat) (mem : Buffer) (hlen : mem.length = N) :
    ∃ r, initializer N mem = some r ∧ r.length = N ∧
      (∀ i, 2 ≤ i → i < N → r[i]? = some 0) ∧
      r[0]? = mem[0]? ∧ r[1]? = mem[1]? := by
  obtain ⟨r, hr, hrlen, hget⟩ := initializer_spec N mem hlen
  refine ⟨r, hr, hrlen, fun i h2 h3 => ?_, ?_, ?_⟩
  · rw [hget i]
    simp [h2, h3]
  · rw [hget 0]
    simp
  · rw [hget 1]
    simp

theorem C4_initializer_zeroes_from_two_witness :
    ∃ r, initializer 5 [7, 1, 5, -2, 1] = some r ∧ r.length = 5 ∧
      (∀ i, 2 ≤ i → i < 5 → r[i]? = some 0) ∧
      r[0]? = ([7, 1, 5, -2, 1] : Buffer)[0]? ∧ r[1]? = ([7, 1, 5, -2, 1] : Buffer)[1]? :=
  C4_initializer_zeroes_from_two 5 [7, 1, 5, -2, 1] rfl

/-- C5: for every buffer of length `N` with arbitrary contents, the extractor completes
and yields the strictly increasing sequence of exactly the indices `i` with
`2 <= i <= N-1` whose cell equals `0`, and the buffer after the scan is the buffer
before it. -/
theorem C5_extractor_scan (N : Nat) (list : Buffer) (hlen : list.length = N) :
    ∃ out, resultExtractor N list = some (list, out) ∧
      out.Pairwise (fun x y => x < y) ∧
      ∀ i, i ∈ out ↔ (2 ≤ i ∧ i ≤ N - 1 ∧ list[i]? = some 0) := by
  refine ⟨_, resultExtractor_spec N list hlen, pairwise_upTo_filter 2 N _, fun i => ?_⟩
  simp only [List.mem_filter, mem_upTo, decide_eq_true_eq]
  constructor
  · rintro ⟨⟨h2, h3⟩, h0⟩
    exact ⟨h2, by omega, h0⟩
  · rintro ⟨h2, h3, h0⟩
    have hi : i < list.length := by
      by_contra hcon
      rw [List.getElem?_eq_none (Nat.le_of_not_lt hcon)] at h0
      exact absurd h0 (by simp)
    exact ⟨⟨h2, by omega⟩, h0⟩

theorem C5_extractor_scan_witness :
    ∃ out, resultExtractor 7 [0, 0, 4, 0, -1, 1, 0] = some ([0, 0, 4, 0, -1, 1, 0], out) ∧
      out.Pairwise (fun x y => x < y) ∧
      ∀ i, i ∈ out ↔ (2 ≤ i ∧ i ≤ 7 - 1 ∧ ([0, 0, 4, 0, -1, 1, 0] : Buffer)[i]? = some 0) :=
  C5_extractor_scan 7 [0, 0, 4, 0, -1, 1, 0] rfl

/-- The numbers printed do not depend on what the allocated block held. -/
theorem pipeline_mem_irrelevant (N : Nat) (hN : 2 ≤ N) (mem1 mem2 : Buffer)
    (h1 : mem1.length = N) (h2 : mem2.length = N) :
    pipeline N mem1 = pipeline N mem2 :=
  (pipeline_eq N hN mem1 h1).trans (pipeline_eq N hN mem2 h2).symm

/-- C6: whatever the allocated block holds, the pipeline output is the empty list for
`N = 2`, `[2]` for `N = 3`, `[2, 3, 5, 7, 11, 13]` for `N = 16` (the default) and for
`N = 17`, and `[2, 3, 5, 7, 11, 13, 17]` for `N = 18`; for every `N >= 2` the output
never lists `N` and lists `N - 1` when `N - 1` is prime. -/
theorem C6_boundary_outputs :
    (∀ mem : Buffer, mem.length = 2 → pipeline 2 mem = some []) ∧
    (∀ mem : Buffer, mem.length = 3 → pipeline 3 mem = some [2]) ∧
    (∀ mem : Buffer, mem.length = 16 → pipeline 16 mem = some [2, 3, 5, 7, 11, 13]) ∧
    (∀ mem : Buffer, mem.length = 17 → pipeline 17 mem = some [2, 3, 5, 7, 11, 13]) ∧
    (∀ mem : Buffer, mem.length = 18 → pipeline 18 mem = some [2, 3, 5, 7, 11, 13, 17]) ∧
    (∀ (N : Nat) (mem : Buffer), 2 ≤ N → mem.length = N →
      ∃ out, pipeline N mem = some out ∧ N ∉ out ∧ (Nat.Prime (N - 1) → N - 1 ∈ out)) := by
  refine ⟨fun mem h => ?_, fun mem h => ?_, fun mem h => ?_, fun mem h => ?_,
    fun mem h => ?_, fun N mem hN h => ?_⟩
  · rw [pipeline_mem_irrelevant 2 (by decide) mem (List.replicate 2 0) h rfl]
    decide
  · rw [pipeline_mem_irrelevant 3 (by decide) mem (List.replicate 3 0) h rfl]
    decide
  · rw [pipeline_mem_irrelevant 16 (by decide) mem (List.replicate 16 0) h rfl]
    decide
  · rw [pipeline_mem_irrelevant 17 (by decide) mem (List.replicate 17 0) h rfl]
    decide
  · rw [pipeline_mem_irrelevant 18 (by decide) mem (List.replicate 18 0) h rfl]
    decide
  · refine ⟨_, pipeline_eq N hN mem h, ?_, fun hp => ?_⟩
    · simp only [List.mem_filter, mem_upTo, decide_eq_true_eq]
      omega
    · simp only [List.mem_filter, mem_upTo, decide_eq_true_eq]
      have := hp.two_le
      exact ⟨⟨this, by omega⟩, hp⟩

theorem C6_boundary_outputs_witness :
    pipeline 2 [4, -1] = some [] ∧
    pipeline 3 [4, -1, 1] = some [2] ∧
    pipeline 16 [4, -1, 1, 1, 0, 0, 9, 1, 1, 1, 0, 3, 1, 0, 1, 1] =
      some [2, 3, 5, 7, 11, 13] ∧
    pipeline 17 [4, -1, 1, 1, 0, 0, 9, 1, 1, 1, 0, 3, 1, 0, 1, 1, 1] =
      some [2, 3, 5, 7, 11, 13] ∧
    pipeline 18 [4, -1, 1, 1, 0, 0, 9, 1, 1, 1, 0, 3, 1, 0, 1, 1, 1, 1] =
      some [2, 3, 5, 7, 11, 13, 17] :=
  ⟨C6_boundary_outputs.1 _ rfl, C6_boundary_outputs.2.1 _ rfl,
    C6_boundary_outputs.2.2.1 _ rfl, C6_boundary_outputs.2.2.2.1 _ rfl,
    C6_boundary_outputs.2.2.2.2.1 _ rfl⟩

/-! ## Marks are never taken back -/

theorem marksKept_refl (list : Buffer) : MarksKept list list :=
  ⟨rfl, fun _ => ⟨id, id⟩⟩

theorem marksKept_trans (a b c : Buffer) (h1 : MarksKept a b) (h2 : MarksKept b c) :
    MarksKept a c :=
  ⟨h2.1.trans h1.1, fun i => ⟨fun h => (h2.2 i).1 ((h1.2 i).1 h),
    fun h => (h1.2 i).2 ((h2.2 i).2 h)⟩⟩

theorem marksKept_set_one (list : Buffer) (m : Nat) : MarksKept list (list.set m 1) := by
  refine ⟨List.length_set list m 1, fun i => ?_⟩
  rw [List.getElem?_set]
  by_cases h : m = i
  · subst h
    by_cases hm : m < list.length
    · simp [hm]
    · simp [hm, List.getElem?_eq_none (Nat.le_of_not_lt hm)]
  · simp [h]

theorem markBody_kept (c m : Nat) (hc : c ≠ 0) (list : Buffer) (hm : m < list.length) :
    ∃ r, markBody c list m = some r ∧ MarksKept list r := by
  rw [markBody_guarded c hc]
  by_cases h : m % c = 0
  · exact ⟨list.set m 1, by simp [h, writeCell_eq list m 1 hm], marksKept_set_one list m⟩
  · exact ⟨list, by simp [h], marksKept_refl list⟩

theorem parallelMarker_kept (N c : Nat) (hc : c ≠ 0) (list : Buffer) (hlen : list.length = N) :
    ∃ r, parallelMarker N c list = some r ∧ MarksKept list r := by
  obtain ⟨r, hr, hrlen, hget⟩ := parallelMarker_spec N c hc list hlen
  refine ⟨r, hr, by omega, fun i => ?_⟩
  rw [hget i]
  by_cases h : (c < i ∧ i < N) ∧ i % c = 0
  · simp [h]
  · rw [if_neg h]
    exact ⟨id, id⟩

theorem driverBody_kept (N c : Nat) (hc : c ≠ 0) (hcN : c < N) (list : Buffer)
    (hlen : list.length = N) :
    ∃ r, driverBody N list c = some r ∧ MarksKept list r := by
  have hc2 : c < list.length := by omega
  have hread := readCell_eq list c hc2
  by_cases hv : list.get ⟨c, hc2⟩ = 0
  · obtain ⟨r, hr, hk⟩ := parallelMarker_kept N c hc list hlen
    refine ⟨r, ?_, hk⟩
    simp only [driverBody, hread, hv, if_true]
    exact hr
  · refine ⟨list, ?_, marksKept_refl list⟩
    simp only [driverBody, hread, hv, if_false]

theorem foldlM_kept (f : Buffer → Nat → Option Buffer) (N : Nat) (l : List Nat)
    (hstep : ∀ b c, c ∈ l → b.length = N → ∃ r, f b c = some r ∧ MarksKept b r)
    (list : Buffer) (hlen : list.length = N) :
    ∃ r, l.foldlM f list = some r ∧ MarksKept list r := by
  induction l generalizing list with
  | nil => exact ⟨list, rfl, marksKept_refl list⟩
  | cons c rest ih =>
    obtain ⟨r1, hr1, hk1⟩ := hstep list c (List.mem_cons_self c rest) hlen
    obtain ⟨r2, hr2, hk2⟩ := ih (fun b d hd hb => hstep b d (List.mem_cons_of_mem c hd) hb)
      r1 (by rw [hk1.1, hlen])
    refine ⟨r2, ?_, marksKept_trans list r1 r2 hk1 hk2⟩
    rw [List.foldlM_cons, hr1]
    exact hr2

theorem sqrtN_le (N : Nat) : sqrtN N ≤ N :=
  Nat.findGreatest_le N

theorem driver_candidate_lt (N c : Nat) (hc : c ∈ upTo 2 (sqrtN N + 1)) : 2 ≤ c ∧ c < N := by
  rw [mem_upTo] at hc
  refine ⟨hc.1, ?_⟩
  by_cases hN : 2 ≤ N
  · have := sqrtN_lt N hN
    omega
  · have := sqrtN_le N
    omega

theorem sieveDriver_kept (N : Nat) (list : Buffer) (hlen : list.length = N) :
    ∃ r, sieveDriver N list = some r ∧ MarksKept list r :=
  foldlM_kept (driverBody N) N (upTo 2 (sqrtN N + 1))
    (fun b c hc hb => driverBody_kept N c (by have := driver_candidate_lt N c hc; omega)
      (driver_candidate_lt N c hc).2 b hb)
    list hlen

/-- C7: on every buffer of length `N`, each marker iteration, each marker round, each
driver step and the whole driver sweep complete and lose no mark (a cell holding `1`
still holds `1`, and no cell holds `0` that did not hold `0` before); the extractor
returns the buffer as it was.  So nothing that runs after the initialiser changes a
cell from marked to unmarked. -/
theorem C7_marked_stays_marked (N : Nat) (list : Buffer) (hlen : list.length = N) :
    (∀ c m, 2 ≤ c → m < N → ∃ r, markBody c list m = some r ∧ MarksKept list r) ∧
    (∀ c, 2 ≤ c → ∃ r, parallelMarker N c list = some r ∧ MarksKept list r) ∧
    (∀ c, 2 ≤ c → c < N → ∃ r, driverBody N list c = some r ∧ MarksKept list r) ∧
    (∃ r, sieveDriver N list = some r ∧ MarksKept list r) ∧
    (∃ out, resultExtractor N list = some (list, out)) :=
  ⟨fun c m hc hm => markBody_kept c m (by omega) list (by omega),
    fun c hc => parallelMarker_kept N c (by omega) list hlen,
    fun c hc hcN => driverBody_kept N c (by omega) hcN list hlen,
    sieveDriver_kept N list hlen,
    ⟨_, resultExtractor_spec N list hlen⟩⟩

theorem C7_marked_stays_marked_witness :
    (∀ c m, 2 ≤ c → m < 6 → ∃ r, markBody c [3, 1, 0, 1, 0, 1] m = some r ∧
      MarksKept [3, 1, 0, 1, 0, 1] r) ∧
    (∀ c, 2 ≤ c → ∃ r, parallelMarker 6 c [3, 1, 0, 1, 0, 1] = some r ∧
      MarksKept [3, 1, 0, 1, 0, 1] r) ∧
    (∀ c, 2 ≤ c → c < 6 → ∃ r, driverBody 6 [3, 1, 0, 1, 0, 1] c = some r ∧
      MarksKept [3, 1, 0, 1, 0, 1] r) ∧
    (∃ r, sieveDriver 6 [3, 1, 0, 1, 0, 1] = some r ∧ MarksKept [3, 1, 0, 1, 0, 1] r) ∧
    (∃ out, resultExtractor 6 [3, 1, 0, 1, 0, 1] = some ([3, 1, 0, 1, 0, 1], out)) :=
  C7_marked_stays_marked 6 [3, 1, 0, 1, 0, 1] rfl

/-- C8: for every `N >= 2`, two runs of the full pipeline on the same `N` complete and
print the same sequence, also when the two allocated blocks hold different contents:
the output depends on no cell of the allocated block, cells `0` and `1` included. -/
theorem C8_output_independent_of_memory (N : Nat) (hN : 2 ≤ N) (mem1 mem2 : Buffer)
    (h1 : mem1.length = N) (h2 : mem2.length = N) :
    ∃ out, pipeline N mem1 = some out ∧ pipeline N mem2 = some out :=
  ⟨_, pipeline_eq N hN mem1 h1, pipeline_eq N hN mem2 h2⟩

theorem C8_output_independent_of_memory_witness :
    ∃ out, pipeline 6 [3, 1, 0, 1, 0, 1] = some out ∧
      pipeline 6 [-4, 0, 1, 1, 8, 2] = some out :=
  C8_output_independent_of_memory 6 (by decide) [3, 1, 0, 1, 0, 1] [-4, 0, 1, 1, 8, 2]
    rfl rfl

/-! ## Independence of the order of the iterations -/

theorem runLoop_init_perm (o1 o2 : List Nat) (hp : o1.Perm o2) (list : Buffer)
    (hb : ∀ i, i ∈ o2 → i < list.length) :
    runLoop initBody o1 list = runLoop initBody o2 list := by
  obtain ⟨r1, h1, _, g1⟩ := runLoop_init o1 list (fun i hi => hb i (hp.mem_iff.mp hi))
  obtain ⟨r2, h2, _, g2⟩ := runLoop_init o2 list hb
  rw [h1, h2]
  congr 1
  apply List.ext_getElem?
  intro j
  rw [g1 j, g2 j]
  simp only [hp.mem_iff]

theorem runLoop_mark_perm (c : Nat) (hc : c ≠ 0) (o1 o2 : List Nat) (hp : o1.Perm o2)
    (list : Buffer) (hb : ∀ i, i ∈ o2 → i < list.length) :
    runLoop (markBody c) o1 list = runLoop (markBody c) o2 list := by
  obtain ⟨r1, h1, _, g1⟩ := runLoop_mark c hc o1 list (fun i hi => hb i (hp.mem_iff.mp hi))
  obtain ⟨r2, h2, _, g2⟩ := runLoop_mark c hc o2 list hb
  rw [h1, h2]
  congr 1
  apply List.ext_getElem?
  intro j
  rw [g1 j, g2 j]
  simp only [hp.mem_iff]

theorem driverBodySched_eq (N : Nat) (sched : Nat → List Nat)
    (hsched : ∀ c, (sched c).Perm (upTo (c + 1) N)) (list : Buffer) (hlen : list.length = N)
    (c : Nat) (hc : c ≠ 0) :
    driverBodySched sched list c = driverBody N list c := by
  have e : runLoop (markBody c) (sched c) list = parallelMarker N c list :=
    runLoop_mark_perm c hc (sched c) (upTo (c + 1) N) (hsched c) list
      (fun i hi => by rw [mem_upTo] at hi; omega)
  unfold driverBodySched driverBody
  rw [e]

theorem foldlM_driver_sched (N : Nat) (sched : Nat → List Nat)
    (hsched : ∀ c, (sched c).Perm (upTo (c + 1) N)) (l : List Nat)
    (hl : ∀ c, c ∈ l → 2 ≤ c ∧ c < N) (list : Buffer) (hlen : list.length = N) :
    l.foldlM (driverBodySched sched) list = l.foldlM (driverBody N) list := by
  induction l generalizing list with
  | nil => rfl
  | cons c rest ih =>
    have hc := hl c (List.mem_cons_self c rest)
    obtain ⟨r, hr, hk⟩ := driverBody_kept N c (by omega) hc.2 list hlen
    rw [List.foldlM_cons, List.foldlM_cons,
      driverBodySched_eq N sched hsched list hlen c (by omega), hr]
    exact ih (fun d hd => hl d (List.mem_cons_of_mem c hd)) r (by rw [hk.1, hlen])

theorem join_perm_of_head (workers : List (List Nat)) (k i : Nat) (rest : List Nat)
    (h : workers[k]? = some (i :: rest)) :
    workers.flatten.Perm (i :: (workers.set k rest).flatten) := by
  induction workers generalizing k with
  | nil => simp at h
  | cons w ws ih =>
    cases k with
    | zero =>
      have e : w = i :: rest := by simpa using h
      subst e
      simp
    | succ k =>
      have h2 : ws[k]? = some (i :: rest) := by simpa using h
      have p := ih k h2
      simp only [List.set_cons_succ, List.flatten_cons]
      exact (List.Perm.append_left w p).trans List.perm_middle

theorem interleave_perm (picks : List Nat) (workers : List (List Nat)) :
    (interleave picks workers).Perm workers.flatten := by
  induction picks generalizing workers with
  | nil => exact List.Perm.refl _
  | cons k picks ih =>
    unfold interleave
    split
    · rename_i i rest h
      exact ((ih (workers.set k rest)).cons i).trans (join_perm_of_head workers k i rest h).symm
    · exact ih workers

/-- C9: for a fixed `N >= 2` and a fixed allocated block, run the iterations of the
initialiser loop in any sequence `initOrder` that is a rearrangement of `2 .. N-1`, and
those of the marker round of each candidate `c` in any sequence `sched c` that is a
rearrangement of `c+1 .. N-1`: the initialiser loop, every marker round and the whole
run up to the end of the driver yield the same buffer as the sequential loops, and
that run completes.  In particular this holds for every number of workers, every way
of dealing the iterations out to them and every interleaving of the workers. -/
theorem C9_order_independent (N : Nat) (hN : 2 ≤ N) (mem : Buffer) (hlen : mem.length = N)
    (initOrder : List Nat) (sched : Nat → List Nat)
    (hinit : initOrder.Perm (upTo 2 N))
    (hsched : ∀ c, (sched c).Perm (upTo (c + 1) N)) :
    runLoop initBody initOrder mem = initializer N mem ∧
    (∀ (c : Nat) (list : Buffer), 2 ≤ c → list.length = N →
      runLoop (markBody c) (sched c) list = parallelMarker N c list) ∧
    sieveBufferSched N initOrder sched mem = sieveBuffer N mem ∧
    (∃ r, sieveBuffer N mem = some r) ∧
    (∀ (workers : List (List Nat)) (picks : List Nat), workers.flatten.Perm (upTo 2 N) →
      runLoop initBody (interleave picks workers) mem = initializer N mem) ∧
    (∀ (c : Nat) (list : Buffer) (workers : List (List Nat)) (picks : List Nat),
      2 ≤ c → list.length = N → workers.flatten.Perm (upTo (c + 1) N) →
      runLoop (markBody c) (interleave picks workers) list = parallelMarker N c list) := by
  have e1 : runLoop initBody initOrder mem = initializer N mem :=
    runLoop_init_perm initOrder (upTo 2 N) hinit mem
      (fun i hi => by rw [mem_upTo] at hi; omega)
  refine ⟨e1, fun c list hc hl => ?_, ?_, ?_, fun workers picks hw => ?_,
    fun c list workers picks hc hl hw => ?_⟩
  · exact runLoop_mark_perm c (by omega) (sched c) (upTo (c + 1) N) (hsched c) list
      (fun i hi => by rw [mem_upTo] at hi; omega)
  · obtain ⟨l0, hl0, hl0len, _⟩ := initializer_spec N mem hlen
    unfold sieveBufferSched sieveBuffer
    rw [e1, hl0]
    exact foldlM_driver_sched N sched hsched (upTo 2 (sqrtN N + 1))
      (fun c hc => driver_candidate_lt N c hc) l0 hl0len
  · obtain ⟨r, hr, _, _⟩ := sieveBuffer_spec N hN mem hlen
    exact ⟨r, hr⟩
  · exact runLoop_init_perm _ (upTo 2 N) ((interleave_perm picks workers).trans hw) mem
      (fun i hi => by rw [mem_upTo] at hi; omega)
  · exact runLoop_mark_perm c (by omega) _ (upTo (c + 1) N)
      ((interleave_perm picks workers).trans hw) list
      (fun i hi => by rw [mem_upTo] at hi; omega)

theorem C9_order_independent_witness :
    runLoop initBody [5, 2, 7, 3, 6, 4] [3, 1, 4, 1, 5, 9, 2, 6] =
      initializer 8 [3, 1, 4, 1, 5, 9, 2, 6] ∧
    (∀ (c : Nat) (list : Buffer), 2 ≤ c → list.length = 8 →
      runLoop (markBody c)
        ((upTo (c + 1) 8).filter (fun m => m % 2 == 0) ++
          (upTo (c + 1) 8).filter (fun m => !(m % 2 == 0))) list =
        parallelMarker 8 c list) ∧
    sieveBufferSched 8 [5, 2, 7, 3, 6, 4]
      (fun c => (upTo (c + 1) 8).filter (fun m => m % 2 == 0) ++
        (upTo (c + 1) 8).filter (fun m => !(m % 2 == 0))) [3, 1, 4, 1, 5, 9, 2, 6] =
      sieveBuffer 8 [3, 1, 4, 1, 5, 9, 2, 6] ∧
    (∃ r, sieveBuffer 8 [3, 1, 4, 1, 5, 9, 2, 6] = some r) ∧
    (∀ (workers : List (List Nat)) (picks : List Nat), workers.flatten.Perm (upTo 2 8) →
      runLoop initBody (interleave picks workers) [3, 1, 4, 1, 5, 9, 2, 6] =
        initializer 8 [3, 1, 4, 1, 5, 9, 2, 6]) ∧
    (∀ (c : Nat) (list : Buffer) (workers : List (List Nat)) (picks : List Nat),
      2 ≤ c → list.length = 8 → workers.flatten.Perm (upTo (c + 1) 8) →
      runLoop (markBody c) (interleave picks workers) list = parallelMarker 8 c list) :=
  C9_order_independent 8 (by decide) [3, 1, 4, 1, 5, 9, 2, 6] rfl [5, 2, 7, 3, 6, 4]
    (fun c => (upTo (c + 1) 8).filter (fun m => m % 2 == 0) ++
      (upTo (c + 1) 8).filter (fun m => !(m % 2 == 0)))
    (by decide) (fun c => List.filter_append_perm _ _)

/-! ## Footprint of one iteration -/

theorem writeCell_frame (list r : Buffer) (i : Nat) (v : Int) (h : writeCell list i v = some r) :
    r.length = list.length ∧ ∀ j, j ≠ i → r[j]? = list[j]? := by
  unfold writeCell at h
  by_cases hi : i < list.length
  · rw [if_pos hi] at h
    have e : r = list.set i v := (Option.some.inj h).symm
    subst e
    refine ⟨List.length_set list i v, fun j hj => ?_⟩
    have hij : ¬ i = j := fun e => hj e.symm
    rw [List.getElem?_set, if_neg hij]
  · rw [if_neg hi] at h
    exact absurd h (by simp)

theorem markBody_frame (c m : Nat) (list r : Buffer) (h : markBody c list m = some r) :
    r.length = list.length ∧ ∀ j, j ≠ m → r[j]? = list[j]? := by
  by_cases hc : c = 0
  · subst hc
    simp [markBody, cMod] at h
  · rw [markBody_guarded c hc] at h
    by_cases hm : m % c = 0
    · rw [if_pos hm] at h
      exact writeCell_frame list r m 1 h
    · rw [if_neg hm] at h
      have e : r = list := (Option.some.inj h).symm
      subst e
      exact ⟨rfl, fun _ _ => rfl⟩

theorem guarded_comm (p : Nat → Prop) [DecidablePred p] (v : Int)
    (body : Buffer → Nat → Option Buffer)
    (hbody : ∀ l i, body l i = if p i then writeCell l i v else some l)
    (i j : Nat) (list : Buffer) :
    (body list i).bind (fun l => body l j) = (body list j).bind (fun l => body l i) := by
  simp only [hbody, writeCell]
  by_cases hi : p i <;> by_cases hj : p j <;>
    by_cases hil : i < list.length <;> by_cases hjl : j < list.length <;>
    simp [hi, hj, hil, hjl, List.length_set]
  by_cases hij : i = j
  · subst hij
    rfl
  · exact List.set_comm v v list hij

/-- C10: in the initialiser loop and in a marker round the iteration for index `i`
changes no cell other than cell `i`, and what it does is fixed before the buffer is
looked at: the initialiser iteration stores one and the same value in cell `i` of every
buffer, a marker iteration either stores `1` in cell `i` of every buffer or leaves
every buffer as it is.  Hence a cell changed by two iterations of one loop is changed
by one and the same iteration, and two iterations give the same result in either
order. -/
theorem C10_disjoint_writes :
    (∀ (i : Nat) (list r : Buffer), initBody list i = some r →
      r.length = list.length ∧ ∀ j, j ≠ i → r[j]? = list[j]?) ∧
    (∀ i : Nat, ∃ v : Int, ∀ list : Buffer, i < list.length →
      initBody list i = some (list.set i v)) ∧
    (∀ (c m : Nat) (list r : Buffer), markBody c list m = some r →
      r.length = list.length ∧ ∀ j, j ≠ m → r[j]? = list[j]?) ∧
    (∀ c m : Nat, 2 ≤ c →
      (∀ list : Buffer, m < list.length → markBody c list m = some (list.set m 1)) ∨
      (∀ list : Buffer, markBody c list m = some list)) ∧
    (∀ (i1 i2 j : Nat) (l1 r1 l2 r2 : Buffer), initBody l1 i1 = some r1 →
      initBody l2 i2 = some r2 → r1[j]? ≠ l1[j]? → r2[j]? ≠ l2[j]? → i1 = i2) ∧
    (∀ (c m1 m2 j : Nat) (l1 r1 l2 r2 : Buffer), markBody c l1 m1 = some r1 →
      markBody c l2 m2 = some r2 → r1[j]? ≠ l1[j]? → r2[j]? ≠ l2[j]? → m1 = m2) ∧
    (∀ (i1 i2 : Nat) (list : Buffer),
      (initBody list i1).bind (fun l => initBody l i2) =
        (initBody list i2).bind (fun l => initBody l i1)) ∧
    (∀ (c m1 m2 : Nat) (list : Buffer), 2 ≤ c →
      (markBody c list m1).bind (fun l => markBody c l m2) =
        (markBody c list m2).bind (fun l => markBody c l m1)) := by
  refine ⟨fun i list r h => writeCell_frame list r i 0 h,
    fun i => ⟨0, fun list hi => writeCell_eq list i 0 hi⟩,
    fun c m list r h => markBody_frame c m list r h, fun c m hc => ?_,
    fun i1 i2 j l1 r1 l2 r2 h1 h2 d1 d2 => ?_,
    fun c m1 m2 j l1 r1 l2 r2 h1 h2 d1 d2 => ?_,
    fun i1 i2 list => guarded_comm (fun _ => True) 0 initBody initBody_guarded i1 i2 list,
    fun c m1 m2 list hc => guarded_comm (fun m => m % c = 0) 1 (markBody c)
      (markBody_guarded c (by omega)) m1 m2 list⟩
  · by_cases hm : m % c = 0
    · left
      intro list hml
      rw [markBody_guarded c (by omega), if_pos hm]
      exact writeCell_eq list m 1 hml
    · right
      intro list
      rw [markBody_guarded c (by omega), if_neg hm]
  · have e1 : j = i1 := by
      by_contra hne
      exact d1 ((writeCell_frame l1 r1 i1 0 h1).2 j hne)
    have e2 : j = i2 := by
      by_contra hne
      exact d2 ((writeCell_frame l2 r2 i2 0 h2).2 j hne)
    omega
  · have e1 : j = m1 := by
      by_contra hne
      exact d1 ((markBody_frame c m1 l1 r1 h1).2 j hne)
    have e2 : j = m2 := by
      by_contra hne
      exact d2 ((markBody_frame c m2 l2 r2 h2).2 j hne)
    omega

theorem C10_disjoint_writes_witness :
    (([3, 1, 0, 1, 5] : Buffer).length = ([3, 1, 4, 1, 5] : Buffer).length ∧
      ∀ j, j ≠ 2 → ([3, 1, 0, 1, 5] : Buffer)[j]? = ([3, 1, 4, 1, 5] : Buffer)[j]?) ∧
    (([3, 1, 4, 1, 1] : Buffer).length = ([3, 1, 4, 1, 5] : Buffer).length ∧
      ∀ j, j ≠ 4 → ([3, 1, 4, 1, 1] : Buffer)[j]? = ([3, 1, 4, 1, 5] : Buffer)[j]?) ∧
    ((∀ list : Buffer, 4 < list.length → markBody 2 list 4 = some (list.set 4 1)) ∨
      (∀ list : Buffer, markBody 2 list 4 = some list)) ∧
    (markBody 2 [3, 1, 4, 1, 5] 4).bind (fun l => markBody 2 l 3) =
      (markBody 2 [3, 1, 4, 1, 5] 3).bind (fun l => markBody 2 l 4) :=
  ⟨C10_disjoint_writes.1 2 [3, 1, 4, 1, 5] [3, 1, 0, 1, 5] rfl,
    C10_disjoint_writes.2.2.1 2 4 [3, 1, 4, 1, 5] [3, 1, 4, 1, 1] rfl,
    C10_disjoint_writes.2.2.2.1 2 4 (by decide),
    C10_disjoint_writes.2.2.2.2.2.2.2 2 4 3 [3, 1, 4, 1, 5] (by decide)⟩

/-! ## The sweep in detail -/

theorem struck_iff_not_prime (k j : Nat) (h2 : 2 ≤ j) (hk : j ≤ k + 1) :
    Struck k j ↔ ¬ Nat.Prime j := by
  constructor
  · rintro ⟨d, _, hd2, hd3, hd4⟩ hp
    have hdvd : d ∣ j := Nat.dvd_of_mod_eq_zero hd4
    rcases (Nat.dvd_prime hp).mp hdvd with e | e <;> omega
  · intro hnp
    obtain ⟨m, hm1, hm2, hm3⟩ := (Nat.not_prime_iff_exists_dvd_lt h2).mp hnp
    exact ⟨m, by omega, hm2, hm3, Nat.mod_eq_zero_of_dvd hm1⟩

/-- A marker round on a buffer in which every composite cell of `2 .. N-1` already
holds `1` changes nothing. -/
theorem parallelMarker_fixed (N c : Nat) (hc : 2 ≤ c) (r : Buffer) (hlen : r.length = N)
    (hcomp : ∀ j, 2 ≤ j → j < N → ¬ Nat.Prime j → r[j]? = some 1) :
    parallelMarker N c r = some r := by
  obtain ⟨r2, hr2, _, hget⟩ := parallelMarker_spec N c (by omega) r hlen
  rw [hr2]
  congr 1
  apply List.ext_getElem?
  intro j
  rw [hget j]
  by_cases h : (c < j ∧ j < N) ∧ j % c = 0
  · rw [if_pos h]
    have hnp : ¬ Nat.Prime j := by
      intro hp
      rcases (Nat.dvd_prime hp).mp (Nat.dvd_of_mod_eq_zero h.2) with e | e <;> omega
    exact (hcomp j (by omega) h.1.2 hnp).symm
  · rw [if_neg h]

theorem driverBody_fixed (N c : Nat) (hc : 2 ≤ c) (hcN : c < N) (r : Buffer)
    (hlen : r.length = N)
    (hcomp : ∀ j, 2 ≤ j → j < N → ¬ Nat.Prime j → r[j]? = some 1) :
    driverBody N r c = some r := by
  have hc2 : c < r.length := by omega
  have hread := readCell_eq r c hc2
  by_cases hv : r.get ⟨c, hc2⟩ = 0
  · simp only [driverBody, hread, hv, if_true]
    exact parallelMarker_fixed N c hc r hlen hcomp
  · simp only [driverBody, hread, hv, if_false]

/-- C16: for every `N >= 2`, on a buffer of length `N` whose cells `2 .. N-1` are
unmarked the sweep over `c = 2 .. sqrtN` completes with a buffer `r` that is final:
for every further candidate `c` with `sqrtN < c < N` the marker round for `c`, and
the driver step for `c`, return `r` unchanged, and the sweep over `c = 2 .. N-1`
yields the same buffer `r`. -/
theorem C16_sweep_is_final (N : Nat) (hN : 2 ≤ N) (list : Buffer) (hlen : list.length = N)
    (h0 : ∀ j, 2 ≤ j → j < N → list[j]? = some 0) :
    ∃ r, sieveDriver N list = some r ∧
      (∀ c, sqrtN N < c → c < N →
        parallelMarker N c r = some r ∧ driverBody N r c = some r) ∧
      sweepUpTo (sqrtN N) N list = some r ∧
      sweepUpTo (N - 1) N list = some r := by
  obtain ⟨r, hr, hrlen, hget⟩ := sieveDriver_spec N hN list hlen h0
  have hcomp : ∀ j, 2 ≤ j → j < N → ¬ Nat.Prime j → r[j]? = some 1 := by
    intro j h2 h3 hnp
    rw [hget j]
    simp [h2, h3, hnp]
  refine ⟨r, hr, fun c h1 h2 => ?_, hr, ?_⟩
  · have hs : 1 ≤ sqrtN N := le_sqrtN_of_sq_lt N 1 (by omega)
    exact ⟨parallelMarker_fixed N c (by omega) r hrlen hcomp,
      driverBody_fixed N c (by omega) h2 r hrlen hcomp⟩
  · obtain ⟨r2, hr2, _, hget2⟩ := driver_prefix N list hlen h0 (N - 1) (by omega) (by omega)
    unfold sweepUpTo
    rw [hr2]
    congr 1
    apply List.ext_getElem?
    intro j
    rw [hget2 j, hget j]
    by_cases hj : 2 ≤ j ∧ j < N
    · have hs := struck_iff_not_prime (N - 1) j hj.1 (by omega)
      by_cases hp : Nat.Prime j
      · have e2 : ¬ Struck (N - 1) j := fun h => hs.mp h hp
        simp [hj, hp, e2]
      · have e2 : Struck (N - 1) j := hs.mpr hp
        simp [hj, hp, e2]
    · rw [if_neg hj, if_neg hj]

theorem C16_sweep_is_final_witness :
    ∃ r, sieveDriver 12 [5, -3, 0, 0, 0, 0, 0, 0, 0, 0, 0, 0] = some r ∧
      (∀ c, sqrtN 12 < c → c < 12 →
        parallelMarker 12 c r = some r ∧ driverBody 12 r c = some r) ∧
      sweepUpTo (sqrtN 12) 12 [5, -3, 0, 0, 0, 0, 0, 0, 0, 0, 0, 0] = some r ∧
      sweepUpTo (12 - 1) 12 [5, -3, 0, 0, 0, 0, 0, 0, 0, 0, 0, 0] = some r :=
  C16_sweep_is_final 12 (by decide) [5, -3, 0, 0, 0, 0, 0, 0, 0, 0, 0, 0] rfl (by decide)

theorem set_one_of_marked (list : Buffer) (m : Nat) (h : list[m]? = some 1) :
    list.set m 1 = list := by
  apply List.ext_getElem?
  intro j
  rw [List.getElem?_set]
  by_cases hj : m = j
  · subst hj
    have hm : m < list.length := by
      by_contra hcon
      rw [List.getElem?_eq_none (Nat.le_of_not_lt hcon)] at h
      exact absurd h (by simp)
    simp [hm, h]
  · simp [hj]

/-- C17: for every `c >= 2` and every buffer of length `N`, the marker round for `c`
completes, and run again on its own result it returns that result unchanged; and a
store of `1` into a cell that already holds `1` returns the buffer unchanged, so the
cell still holds `1`. -/
theorem C17_marking_idempotent (N c : Nat) (hc : 2 ≤ c) (list : Buffer)
    (hlen : list.length = N) :
    (∃ r, parallelMarker N c list = some r ∧ parallelMarker N c r = some r) ∧
    (∀ m, list[m]? = some 1 → writeCell list m 1 = some list) ∧
    (∀ m, list[m]? = some 1 → markBody c list m = some list) := by
  refine ⟨?_, fun m hm => ?_, fun m hm => ?_⟩
  · obtain ⟨r, hr, hrlen, hget⟩ := parallelMarker_spec N c (by omega) list hlen
    obtain ⟨r2, hr2, _, hget2⟩ := parallelMarker_spec N c (by omega) r hrlen
    refine ⟨r, hr, ?_⟩
    rw [hr2]
    congr 1
    apply List.ext_getElem?
    intro j
    rw [hget2 j, hget j]
    by_cases h : (c < j ∧ j < N) ∧ j % c = 0
    · simp [h]
    · simp [h]
  · have hlt : m < list.length := by
      by_contra hcon
      rw [List.getElem?_eq_none (Nat.le_of_not_lt hcon)] at hm
      exact absurd hm (by simp)
    rw [writeCell_eq list m 1 hlt, set_one_of_marked list m hm]
  · have hlt : m < list.length := by
      by_contra hcon
      rw [List.getElem?_eq_none (Nat.le_of_not_lt hcon)] at hm
      exact absurd hm (by simp)
    rw [markBody_guarded c (by omega)]
    by_cases h : m % c = 0
    · rw [if_pos h, writeCell_eq list m 1 hlt, set_one_of_marked list m hm]
    · rw [if_neg h]

theorem C17_marking_idempotent_witness :
    (∃ r, parallelMarker 8 2 [5, -3, 0, 1, 1, 0, 7, 0] = some r ∧
      parallelMarker 8 2 r = some r) ∧
    (∀ m, ([5, -3, 0, 1, 1, 0, 7, 0] : Buffer)[m]? = some 1 →
      writeCell [5, -3, 0, 1, 1, 0, 7, 0] m 1 = some [5, -3, 0, 1, 1, 0, 7, 0]) ∧
    (∀ m, ([5, -3, 0, 1, 1, 0, 7, 0] : Buffer)[m]? = some 1 →
      markBody 2 [5, -3, 0, 1, 1, 0, 7, 0] m = some [5, -3, 0, 1, 1, 0, 7, 0]) :=
  C17_marking_idempotent 8 2 (by decide) [5, -3, 0, 1, 1, 0, 7, 0] rfl

/-! ## The scan of the marker against the classical stride -/

theorem mem_strideCells (N c m : Nat) (hc : 1 ≤ c) :
    m ∈ strideCells N c ↔ ∃ k, 2 ≤ k ∧ m = k * c ∧ m < N := by
  unfold strideCells
  simp only [List.mem_filter, List.mem_map, mem_upTo, decide_eq_true_eq]
  constructor
  · rintro ⟨⟨k, ⟨hk, _⟩, rfl⟩, hlt⟩
    exact ⟨k, hk, rfl, hlt⟩
  · rintro ⟨k, hk, rfl, hlt⟩
    refine ⟨⟨k, ⟨hk, ?_⟩, rfl⟩, hlt⟩
    have : k * 1 ≤ k * c := Nat.mul_le_mul_left k hc
    omega

theorem mem_strideCells_iff_scan (N c m : Nat) (hc : 1 ≤ c) :
    m ∈ strideCells N c ↔ (c < m ∧ m < N) ∧ m % c = 0 := by
  rw [mem_strideCells N c m hc]
  constructor
  · rintro ⟨k, hk, rfl, hlt⟩
    refine ⟨⟨?_, hlt⟩, Nat.mul_mod_left k c⟩
    have : 2 * c ≤ k * c := Nat.mul_le_mul_right c hk
    omega
  · rintro ⟨⟨h1, h2⟩, h3⟩
    obtain ⟨k, rfl⟩ := Nat.dvd_of_mod_eq_zero h3
    refine ⟨k, ?_, Nat.mul_comm c k, h2⟩
    by_contra hk
    have hk1 : k ≤ 1 := by omega
    have : c * k ≤ c * 1 := Nat.mul_le_mul_left c hk1
    omega

/-- C19: for every `c >= 2` and every buffer of length `N`, the scan of the marker
(visit every `m` with `c < m < N`, store `1` when `m % c == 0`) completes and returns
the same buffer as the classical stride marking, which stores `1` in exactly the
cells `2c, 3c, 4c, ...` below `N`. -/
theorem C19_scan_equals_stride (N c : Nat) (hc : 2 ≤ c) (list : Buffer)
    (hlen : list.length = N) :
    (∃ r, parallelMarker N c list = some r ∧ strideMarker N c list = some r) ∧
    (∀ m, m ∈ strideCells N c ↔ ∃ k, 2 ≤ k ∧ m = k * c ∧ m < N) := by
  refine ⟨?_, fun m => mem_strideCells N c m (by omega)⟩
  obtain ⟨r, hr, hrlen, hget⟩ := parallelMarker_spec N c (by omega) list hlen
  obtain ⟨r2, hr2, _, hget2⟩ := runLoop_guarded (fun _ => True) 1
    (fun l m => writeCell l m 1) (fun l i => by simp) (strideCells N c) list
    (fun i hi _ => by
      rw [mem_strideCells_iff_scan N c i (by omega)] at hi
      omega)
  refine ⟨r, hr, ?_⟩
  unfold strideMarker
  rw [hr2]
  congr 1
  apply List.ext_getElem?
  intro j
  rw [hget2 j, hget j]
  simp only [and_true, mem_strideCells_iff_scan N c j (by omega : 1 ≤ c)]

theorem C19_scan_equals_stride_witness :
    (∃ r, parallelMarker 10 3 [5, -3, 0, 0, 1, 0, 7, 0, 0, 0] = some r ∧
      strideMarker 10 3 [5, -3, 0, 0, 1, 0, 7, 0, 0, 0] = some r) ∧
    (∀ m, m ∈ strideCells 10 3 ↔ ∃ k, 2 ≤ k ∧ m = k * 3 ∧ m < 10) :=
  C19_scan_equals_stride 10 3 (by decide) [5, -3, 0, 0, 1, 0, 7, 0, 0, 0] rfl

/-! ## The candidates for which the marker runs -/

theorem driverBodyLog_of_marker (N c : Nat) (r r2 : Buffer) (log : List Nat)
    (hread : readCell r c = some 0) (hm : parallelMarker N c r = some r2) :
    driverBody N r c = some r2 ∧ driverBodyLog N (r, log) c = some (r2, log ++ [c]) := by
  constructor
  · simp only [driverBody, hread, if_true]
    exact hm
  · simp only [driverBodyLog, hread, if_true, hm]

theorem driverBodyLog_of_skip (N c : Nat) (r : Buffer) (log : List Nat)
    (hread : readCell r c = some 1) :
    driverBody N r c = some r ∧ driverBodyLog N (r, log) c = some (r, log) := by
  constructor
  · simp [driverBody, hread]
  · simp [driverBodyLog, hread]

/-- The sweep over the candidates `2 .. k` with and without the list of the
candidates handed to the marker: the buffers agree and the list holds the primes. -/
theorem driverLog_prefix (N : Nat) (list : Buffer) (hlen : list.length = N)
    (h0 : ∀ j, 2 ≤ j → j < N → list[j]? = some 0) (k : Nat) (hk1 : 1 ≤ k) (hkN : k < N) :
    ∃ r, sweepUpTo k N list = some r ∧
      (upTo 2 (k + 1)).foldlM (driverBodyLog N) (list, []) =
        some (r, (upTo 2 (k + 1)).filter (fun c => decide (Nat.Prime c))) := by
  induction k with
  | zero => omega
  | succ k ih =>
    by_cases hk : k = 0
    · subst hk
      exact ⟨list, by simp [sweepUpTo, upTo], by simp [upTo]⟩
    · obtain ⟨r, hr, hlog⟩ := ih (by omega) (by omega)
      obtain ⟨r1, hr1, hr1len, hget⟩ := driver_prefix N list hlen h0 k (by omega) (by omega)
      have er : r1 = r := by
        unfold sweepUpTo at hr
        rw [hr1] at hr
        exact Option.some.inj hr
      subst er
      have hs := struck_iff_not_prime k (k + 1) (by omega) (Nat.le_refl _)
      have hread : readCell r1 (k + 1) = if Struck k (k + 1) then some 1 else some 0 := by
        unfold readCell
        rw [hget (k + 1)]
        simp [show 2 ≤ k + 1 by omega, hkN]
      unfold sweepUpTo
      rw [upTo_succ 2 (k + 1) (by omega), List.foldlM_append, List.foldlM_append, hr1, hlog,
        List.filter_append]
      simp only [Option.bind_eq_bind, Option.some_bind, foldlM_single]
      by_cases hp : Nat.Prime (k + 1)
      · have e : ¬ Struck k (k + 1) := fun h => hs.mp h hp
        rw [if_neg e] at hread
        obtain ⟨r2, hr2, _, _⟩ := parallelMarker_spec N (k + 1) (by omega) r1 hr1len
        obtain ⟨g1, g2⟩ := driverBodyLog_of_marker N (k + 1) r1 r2
          ((upTo 2 (k + 1)).filter (fun c => decide (Nat.Prime c))) hread hr2
        refine ⟨r2, g1, ?_⟩
        rw [g2]
        simp [List.filter_cons, hp]
      · have e : Struck k (k + 1) := hs.mpr hp
        rw [if_pos e] at hread
        obtain ⟨g1, g2⟩ := driverBodyLog_of_skip N (k + 1) r1
          ((upTo 2 (k + 1)).filter (fun c => decide (Nat.Prime c))) hread
        refine ⟨r1, g1, ?_⟩
        rw [g2]
        simp [List.filter_cons, hp]

/-- C14: for every `N >= 2`, on a buffer of length `N` whose cells `2 .. N-1` are
unmarked, and every candidate `c` with `2 <= c <= sqrtN`: the sweep up to `c - 1`
completes and in its result, the buffer in which the driver tests cell `c`, that cell
holds `0` if and only if `c` is prime and `1` if and only if `c` is not prime.  The
whole sweep hands to the marker exactly the primes up to `sqrtN`, in increasing order.
A composite `c` has a prime factor `p < c` such that the buffer after the round for
`p` already holds `1` in cell `c`. -/
theorem C14_marker_runs_for_primes (N : Nat) (hN : 2 ≤ N) (list : Buffer)
    (hlen : list.length = N) (h0 : ∀ j, 2 ≤ j → j < N → list[j]? = some 0) :
    (∀ c, 2 ≤ c → c ≤ sqrtN N →
      ∃ r, sweepUpTo (c - 1) N list = some r ∧
        (r[c]? = some 0 ↔ Nat.Prime c) ∧ (r[c]? = some 1 ↔ ¬ Nat.Prime c)) ∧
    (∃ r, sieveDriver N list = some r ∧
      sieveDriverLog N list =
        some (r, (upTo 2 (sqrtN N + 1)).filter (fun c => decide (Nat.Prime c)))) ∧
    (∀ c, 2 ≤ c → c ≤ sqrtN N → ¬ Nat.Prime c →
      ∃ p r, Nat.Prime p ∧ p < c ∧ p ∣ c ∧
        sweepUpTo p N list = some r ∧ r[c]? = some 1) := by
  have hsN := sqrtN_lt N hN
  refine ⟨fun c h2 hc => ?_, ?_, fun c h2 hc hnp => ?_⟩
  · obtain ⟨r, hr, _, hget⟩ := driver_prefix N list hlen h0 (c - 1) (by omega) (by omega)
    have hs := struck_iff_not_prime (c - 1) c h2 (by omega)
    refine ⟨r, hr, ?_⟩
    rw [hget c, if_pos ⟨h2, by omega⟩]
    by_cases hp : Nat.Prime c
    · have e2 : ¬ Struck (c - 1) c := fun h => hs.mp h hp
      simp [hp, e2]
    · have e2 : Struck (c - 1) c := hs.mpr hp
      simp [hp, e2]
  · have hk1 : 1 ≤ sqrtN N := le_sqrtN_of_sq_lt N 1 (by omega)
    exact driverLog_prefix N list hlen h0 (sqrtN N) hk1 hsN
  · have hne : c ≠ 1 := by omega
    have hmp : Nat.Prime (Nat.minFac c) := Nat.minFac_prime hne
    have hle : Nat.minFac c ≤ c := Nat.minFac_le (by omega)
    have hlt : Nat.minFac c < c := by
      rcases Nat.lt_or_ge (Nat.minFac c) c with h | h
      · exact h
      · have h3 : Nat.minFac c = c := by omega
        exact absurd (h3 ▸ hmp) hnp
    obtain ⟨r, hr, _, hget⟩ := driver_prefix N list hlen h0 (Nat.minFac c)
      (by have := hmp.two_le; omega) (by omega)
    refine ⟨Nat.minFac c, r, hmp, hlt, Nat.minFac_dvd c, hr, ?_⟩
    have hst : Struck (Nat.minFac c) c :=
      ⟨Nat.minFac c, by omega, hmp.two_le, hlt, Nat.mod_eq_zero_of_dvd (Nat.minFac_dvd c)⟩
    rw [hget c, if_pos ⟨h2, by omega⟩, if_pos hst]

theorem C14_marker_runs_for_primes_witness :
    (∀ c, 2 ≤ c → c ≤ sqrtN 30 →
      ∃ r, sweepUpTo (c - 1) 30 ([5, -3] ++ List.replicate 28 0) = some r ∧
        (r[c]? = some 0 ↔ Nat.Prime c) ∧ (r[c]? = some 1 ↔ ¬ Nat.Prime c)) ∧
    (∃ r, sieveDriver 30 ([5, -3] ++ List.replicate 28 0) = some r ∧
      sieveDriverLog 30 ([5, -3] ++ List.replicate 28 0) =
        some (r, (upTo 2 (sqrtN 30 + 1)).filter (fun c => decide (Nat.Prime c)))) ∧
    (∀ c, 2 ≤ c → c ≤ sqrtN 30 → ¬ Nat.Prime c →
      ∃ p r, Nat.Prime p ∧ p < c ∧ p ∣ c ∧
        sweepUpTo p 30 ([5, -3] ++ List.replicate 28 0) = some r ∧ r[c]? = some 1) :=
  C14_marker_runs_for_primes 30 (by decide) ([5, -3] ++ List.replicate 28 0) rfl
    (by decide)

/-! ## The program around the sieve -/

/-- The initialiser and the driver complete on every block of `N` cells, for every `N`. -/
theorem sieveBuffer_total (N : Nat) (mem : Buffer) (hlen : mem.length = N) :
    ∃ r, sieveBuffer N mem = some r ∧ r.length = N := by
  obtain ⟨l0, hl0, hl0len, _⟩ := initializer_spec N mem hlen
  obtain ⟨r, hr, hk⟩ := sieveDriver_kept N l0 hl0len
  refine ⟨r, ?_, by rw [hk.1, hl0len]⟩
  simp only [sieveBuffer, hl0]
  exact hr

theorem runCore_alloc (N : Int) (hN0 : 0 ≤ N) (is_printing : Bool) (mem : Buffer)
    (hlen : mem.length = N.toNat) :
    ∃ list found, sieveBuffer N.toNat mem = some list ∧
      resultExtractor N.toNat list = some (list, found) ∧
      runCore N is_printing (some mem) =
        some ⟨0, if is_printing then printEvents found ++ [Event.runtime]
          else [Event.runtime]⟩ := by
  obtain ⟨list, hl, hllen⟩ := sieveBuffer_total N.toNat mem hlen
  have hx := resultExtractor_spec N.toNat list hllen
  have hneg : ¬ N < 0 := by omega
  refine ⟨list, _, hl, hx, ?_⟩
  cases is_printing
  · simp [runCore, hl, hneg]
  · simp [runCore, hl, hx, hneg]

theorem outText_printEvents (found : List Nat) (rest : List Event) :
    outText (printEvents found ++ rest) =
      found.foldr (fun c t => Nat.repr c ++ " " ++ t) ("\n" ++ outText rest) := by
  induction found with
  | nil => simp [printEvents, outText]
  | cons c cs ih =>
    have e : printEvents (c :: cs) ++ rest =
        Event.out (Nat.repr c ++ " ") :: (printEvents cs ++ rest) := by
      simp [printEvents]
    rw [e, outText, ih]
    simp [List.foldr_cons, String.append_assoc]

/-- C12, as stated, fails: with `-o` and `-n 3` the run writes `2`, a space and a
newline, whereas the numbers separated by single spaces and followed by a newline are
`2` and a newline. -/
theorem C12_separated_line_fails :
    (sieveMain [Opt.o, Opt.n "3"] (fun _ => some [7, 7, 7])).map
        (fun o => outText o.events) = some "2 \n" ∧
      pipeline 3 [7, 7, 7] = some [2] ∧
      separatedLine [2] = "2\n" ∧
      (sieveMain [Opt.o, Opt.n "3"] (fun _ => some [7, 7, 7])).map
        (fun o => outText o.events) ≠ some (separatedLine [2]) := by
  decide

/-- C12, amended: for every `N >= 2` and every block of `N` cells, with the flag set
the run writes on the output stream, before the runtime line, each number found by
the pipeline (the primes below `N`, increasing), in decimal and followed by a single
space, and then a single newline, so that a space precedes the newline whenever a
prime is listed; with the flag not set it writes the runtime line only. -/
theorem C12_output_text (N : Nat) (hN : 2 ≤ N) (mem : Buffer) (hlen : mem.length = N) :
    ∃ found, pipeline N mem = some found ∧
      found = (upTo 2 N).filter (fun i => decide (Nat.Prime i)) ∧
      runCore (N : Int) true (some mem) =
        some ⟨0, printEvents found ++ [Event.runtime]⟩ ∧
      outText (printEvents found ++ [Event.runtime]) =
        found.foldr (fun c t => Nat.repr c ++ " " ++ t) "\n" ∧
      runCore (N : Int) false (some mem) = some ⟨0, [Event.runtime]⟩ ∧
      outText [Event.runtime] = "" := by
  have hlen2 : mem.length = (N : Int).toNat := by simpa using hlen
  obtain ⟨list, found, hl, hx, hrun⟩ := runCore_alloc N (by omega) true mem hlen2
  obtain ⟨list2, found2, hl2, _, hrun2⟩ := runCore_alloc N (by omega) false mem hlen2
  rw [Int.toNat_ofNat] at hl hx
  have hp : pipeline N mem = some found := by
    simp only [pipeline, hl, hx]
  have hf : found = (upTo 2 N).filter (fun i => decide (Nat.Prime i)) := by
    have := pipeline_eq N hN mem hlen
    rw [hp] at this
    exact Option.some.inj this
  refine ⟨found, hp, hf, by simpa using hrun, ?_, by simpa using hrun2, rfl⟩
  rw [outText_printEvents]
  simp [outText]

theorem C12_output_text_witness :
    ∃ found, pipeline 6 [3, 1, 0, 1, 0, 1] = some found ∧
      found = (upTo 2 6).filter (fun i => decide (Nat.Prime i)) ∧
      runCore ((6 : Nat) : Int) true (some [3, 1, 0, 1, 0, 1]) =
        some ⟨0, printEvents found ++ [Event.runtime]⟩ ∧
      outText (printEvents found ++ [Event.runtime]) =
        found.foldr (fun c t => Nat.repr c ++ " " ++ t) "\n" ∧
      runCore ((6 : Nat) : Int) false (some [3, 1, 0, 1, 0, 1]) =
        some ⟨0, [Event.runtime]⟩ ∧
      outText [Event.runtime] = "" :=
  C12_output_text 6 (by decide) [3, 1, 0, 1, 0, 1] rfl

/-! ## Reading the argument of `-n` -/

theorem digitChar_digit (d : Nat) (hd : d < 10) :
    (48 ≤ (Nat.digitChar d).toNat ∧ (Nat.digitChar d).toNat ≤ 57) ∧
      (Nat.digitChar d).toNat - 48 = d := by
  interval_cases d <;> decide

theorem toDigitsCore_append (fuel n : Nat) (ds : List Char) :
    Nat.toDigitsCore 10 fuel n ds = Nat.toDigitsCore 10 fuel n [] ++ ds := by
  induction fuel generalizing n ds with
  | zero => simp [Nat.toDigitsCore]
  | succ fuel ih =>
    simp only [Nat.toDigitsCore]
    by_cases h : n / 10 = 0
    · simp [h]
    · simp only [h, if_false]
      rw [ih (n / 10) (Nat.digitChar (n % 10) :: ds), ih (n / 10) [Nat.digitChar (n % 10)]]
      simp

theorem digitsVal_toDigitsCore (fuel n : Nat) (hf : n < fuel) (rest : List Char) :
    digitsVal 0 (Nat.toDigitsCore 10 fuel n [] ++ rest) = digitsVal n rest := by
  induction fuel generalizing n rest with
  | zero => omega
  | succ fuel ih =>
    have hd := digitChar_digit (n % 10) (Nat.mod_lt n (by decide))
    simp only [Nat.toDigitsCore]
    by_cases h : n / 10 = 0
    · have hn : n % 10 = n := by omega
      simp only [h, if_true, List.cons_append, List.nil_append, digitsVal, hd.1, hd.2,
        and_self]
      rw [hn]
      simp
    · simp only [h, if_false]
      rw [toDigitsCore_append, List.append_assoc, ih (n / 10) (by omega)]
      simp only [List.cons_append, List.nil_append, digitsVal, hd.1, hd.2, and_self, if_true]
      have e : n / 10 * 10 + n % 10 = n := by omega
      rw [e]
      rfl

theorem toDigitsCore_head (fuel n : Nat) (ds : List Char) :
    ∃ d rest, d < 10 ∧ Nat.toDigitsCore 10 (fuel + 1) n ds = Nat.digitChar d :: rest := by
  induction fuel generalizing n ds with
  | zero =>
    refine ⟨n % 10, ds, Nat.mod_lt n (by decide), ?_⟩
    simp [Nat.toDigitsCore]
  | succ fuel ih =>
    by_cases h : n / 10 = 0
    · refine ⟨n % 10, ds, Nat.mod_lt n (by decide), ?_⟩
      rw [Nat.toDigitsCore]
      simp [h]
    · obtain ⟨d, rest, hd, e⟩ := ih (n / 10) (Nat.digitChar (n % 10) :: ds)
      refine ⟨d, rest, hd, ?_⟩
      rw [Nat.toDigitsCore]
      simp only [h, if_false]
      exact e

theorem atoiChars_of_digit_head (d : Nat) (hd : d < 10) (rest : List Char) :
    atoiChars (Nat.digitChar d :: rest) = (digitsVal 0 (Nat.digitChar d :: rest) : Int) := by
  have h := (digitChar_digit d hd).1
  have hs : isSpaceC (Nat.digitChar d) = false := by
    simp only [isSpaceC, Bool.or_eq_false_iff, Bool.and_eq_false_iff, decide_eq_false_iff_not]
    omega
  have h45 : ¬ (Nat.digitChar d).toNat = 45 := by omega
  have h43 : ¬ (Nat.digitChar d).toNat = 43 := by omega
  simp [atoiChars, List.dropWhile_cons, hs, h45, h43]

/-- The decimal numeral of `n`, as `printf("%d")` or a shell would write it, is read
back by `atoi` as `n`. -/
theorem atoiChars_repr (n : Nat) : atoiChars (Nat.repr n).data = (n : Int) := by
  have e : (Nat.repr n).data = Nat.toDigitsCore 10 (n + 1) n [] := rfl
  obtain ⟨d, rest, hd, hh⟩ := toDigitsCore_head n n []
  have hv := digitsVal_toDigitsCore (n + 1) n (Nat.lt_succ_self n) []
  rw [List.append_nil] at hv
  rw [e, hh, atoiChars_of_digit_head d hd rest, ← hh, hv]
  rfl

theorem atoi_repr (n : Nat) (hn : n ≤ 2147483647) : atoi (Nat.repr n) = some (n : Int) := by
  unfold atoi
  rw [atoiChars_repr n]
  have h1 : (-2147483648 : Int) ≤ (n : Int) := by omega
  have h2 : (n : Int) ≤ 2147483647 := by omega
  simp [h1, h2]

/-- C13, as stated, fails: the arguments `0`, `abc` and `-5` of `-n` fall through the
option loop as `N = 0`, `N = 0` and `N = -5`, and with `N = 0` the run goes on to the
allocation and through the loops to a normal end. -/
theorem C13_unvalidated_reaches_core :
    getoptLoop 16 false [Opt.n "0"] = Parse.core 0 false ∧
    getoptLoop 16 false [Opt.n "abc"] = Parse.core 0 false ∧
    getoptLoop 16 false [Opt.n "-5"] = Parse.core (-5) false ∧
    sieveMain [Opt.n "0"] (fun N => if N = 0 then some [] else none) =
      some ⟨0, [Event.runtime]⟩ := by
  decide

/-! ### What `atoi` reads -/

theorem dropWhile_blanks (blanks rest : List Char)
    (hb : ∀ ch, ch ∈ blanks → isSpaceC ch = true) :
    (blanks ++ rest).dropWhile isSpaceC = rest.dropWhile isSpaceC := by
  induction blanks with
  | nil => rfl
  | cons ch cs ih =>
    have h1 : isSpaceC ch = true := hb ch (List.mem_cons_self ch cs)
    rw [List.cons_append, List.dropWhile_cons, if_pos h1]
    exact ih (fun x hx => hb x (List.mem_cons_of_mem ch hx))

theorem atoiChars_blanks (blanks rest : List Char)
    (hb : ∀ ch, ch ∈ blanks → isSpaceC ch = true) :
    atoiChars (blanks ++ rest) = atoiChars rest := by
  unfold atoiChars
  rw [dropWhile_blanks blanks rest hb]

theorem digitsVal_stop (acc : Nat) (tail : List Char)
    (h : ∀ ch, ch ∈ tail.head? → ¬ (48 ≤ ch.toNat ∧ ch.toNat ≤ 57)) :
    digitsVal acc tail = acc := by
  cases tail with
  | nil => rfl
  | cons ch rest =>
    have h1 := h ch (by simp)
    simp only [digitsVal, h1, if_false]

theorem digitsVal_repr (n : Nat) (tail : List Char)
    (h : ∀ ch, ch ∈ tail.head? → ¬ (48 ≤ ch.toNat ∧ ch.toNat ≤ 57)) :
    digitsVal 0 ((Nat.repr n).data ++ tail) = n := by
  have e : (Nat.repr n).data = Nat.toDigitsCore 10 (n + 1) n [] := rfl
  rw [e, digitsVal_toDigitsCore (n + 1) n (Nat.lt_succ_self n) tail, digitsVal_stop n tail h]

theorem atoiChars_repr_tail (n : Nat) (tail : List Char)
    (h : ∀ ch, ch ∈ tail.head? → ¬ (48 ≤ ch.toNat ∧ ch.toNat ≤ 57)) :
    atoiChars ((Nat.repr n).data ++ tail) = (n : Int) := by
  have e : (Nat.repr n).data = Nat.toDigitsCore 10 (n + 1) n [] := rfl
  obtain ⟨d, rest, hd, hh⟩ := toDigitsCore_head n n []
  have hv := digitsVal_repr n tail h
  rw [e, hh] at hv
  rw [e, hh, List.cons_append, atoiChars_of_digit_head d hd (rest ++ tail)]
  rw [List.cons_append] at hv
  rw [hv]

theorem atoiChars_sign (sg : Char) (rest : List Char) (hs : sg.toNat = 45 ∨ sg.toNat = 43) :
    atoiChars (sg :: rest) =
      if sg.toNat = 45 then - (digitsVal 0 rest : Int) else (digitsVal 0 rest : Int) := by
  have hsp : isSpaceC sg = false := by
    simp only [isSpaceC, Bool.or_eq_false_iff, Bool.and_eq_false_iff, decide_eq_false_iff_not]
    omega
  rcases hs with h | h
  · simp [atoiChars, List.dropWhile_cons, hsp, h]
  · have h45 : ¬ sg.toNat = 45 := by omega
    simp [atoiChars, List.dropWhile_cons, hsp, h, h45]

theorem atoiChars_plain (tail : List Char)
    (h : ∀ ch, ch ∈ tail.head? → isSpaceC ch = false ∧ ch.toNat ≠ 45 ∧ ch.toNat ≠ 43 ∧
      ¬ (48 ≤ ch.toNat ∧ ch.toNat ≤ 57)) :
    atoiChars tail = 0 := by
  cases tail with
  | nil => rfl
  | cons ch rest =>
    obtain ⟨h1, h2, h3, h4⟩ := h ch (by simp)
    simp [atoiChars, List.dropWhile_cons, h1, h2, h3, digitsVal, h4]

theorem atoi_iff (s : String) (v : Int) :
    atoi s = some v ↔ v = atoiChars s.data ∧ -2147483648 ≤ v ∧ v ≤ 2147483647 := by
  unfold atoi
  by_cases h : -2147483648 ≤ atoiChars s.data ∧ atoiChars s.data ≤ 2147483647
  · rw [if_pos h]
    constructor
    · intro e
      have e2 : atoiChars s.data = v := Option.some.inj e
      subst e2
      exact ⟨rfl, h⟩
    · rintro ⟨e, _⟩
      rw [e]
  · rw [if_neg h]
    constructor
    · intro e
      exact absurd e (by simp)
    · rintro ⟨e, h1, h2⟩
      subst e
      exact absurd ⟨h1, h2⟩ h

/-! ### The option loop on every sequence of answers -/

theorem readable_nil : Readable [] := by
  intro x hx
  simp at hx

theorem readable_cons_o (rest : List Opt) (h : Readable rest) : Readable (Opt.o :: rest) := by
  intro x hx
  rcases List.mem_cons.mp hx with e | e
  · exact Or.inl e
  · exact h x e

theorem readable_cons_n (optarg : String) (v : Int) (hv : atoi optarg = some v)
    (rest : List Opt) (h : Readable rest) : Readable (Opt.n optarg :: rest) := by
  intro x hx
  rcases List.mem_cons.mp hx with e | e
  · exact Or.inr ⟨optarg, v, e, hv⟩
  · exact h x e

theorem readable_tail (x : Opt) (rest : List Opt) (h : Readable (x :: rest)) :
    Readable rest :=
  fun y hy => h y (List.mem_cons_of_mem x hy)

theorem getoptLoop_all_o (post : List Opt) (ho : ∀ x, x ∈ post → x = Opt.o) (N : Int)
    (q : Bool) :
    getoptLoop N q post = Parse.core N (q || decide (post ≠ [])) := by
  induction post generalizing q with
  | nil => simp [getoptLoop]
  | cons x rest ih =>
    have hx : x = Opt.o := ho x (List.mem_cons_self x rest)
    subst hx
    rw [getoptLoop, ih (fun y hy => ho y (List.mem_cons_of_mem _ hy)) true]
    simp

/-- Readable answers only update `N` and set the flag; the loop goes on behind them. -/
theorem getoptLoop_readable_append (pre : List Opt) (hr : Readable pre) (N0 : Int)
    (q : Bool) :
    ∃ N1, ∀ rest, getoptLoop N0 q (pre ++ rest) =
      getoptLoop N1 (q || decide (Opt.o ∈ pre)) rest := by
  induction pre generalizing N0 q with
  | nil => exact ⟨N0, fun rest => by simp⟩
  | cons x pre ih =>
    have hr2 := readable_tail x pre hr
    rcases hr x (List.mem_cons_self x pre) with e | ⟨optarg, v, e, hv⟩
    · subst e
      obtain ⟨N1, h⟩ := ih hr2 N0 true
      refine ⟨N1, fun rest => ?_⟩
      rw [List.cons_append, getoptLoop, h rest]
      simp
    · subst e
      obtain ⟨N1, h⟩ := ih hr2 v q
      refine ⟨N1, fun rest => ?_⟩
      rw [List.cons_append, getoptLoop]
      simp only [hv]
      rw [h rest]
      simp

/-- Every run of the option loop ends in exactly one of three ways, according to the
first answer that is not readable. -/
theorem getoptLoop_cases (opts : List Opt) (N0 : Int) (q : Bool) :
    (Readable opts ∧ ∃ N p, getoptLoop N0 q opts = Parse.core N p) ∨
    (∃ pre diag post, opts = pre ++ Opt.other diag :: post ∧ Readable pre ∧
      getoptLoop N0 q opts = Parse.usage diag) ∨
    (∃ pre optarg post, opts = pre ++ Opt.n optarg :: post ∧ Readable pre ∧
      atoi optarg = none ∧ getoptLoop N0 q opts = Parse.undefined) := by
  induction opts generalizing N0 q with
  | nil => exact Or.inl ⟨readable_nil, N0, q, rfl⟩
  | cons x rest ih =>
    cases x with
    | n optarg =>
      cases hv : atoi optarg with
      | none =>
        refine Or.inr (Or.inr ⟨[], optarg, rest, rfl, readable_nil, hv, ?_⟩)
        simp only [getoptLoop, hv]
      | some v =>
        have e : getoptLoop N0 q (Opt.n optarg :: rest) = getoptLoop v q rest := by
          simp only [getoptLoop, hv]
        rw [e]
        rcases ih v q with ⟨hr, h⟩ | ⟨pre, d, post, h1, h2, h3⟩ | ⟨pre, a, post, h1, h2, h3, h4⟩
        · exact Or.inl ⟨readable_cons_n optarg v hv rest hr, h⟩
        · exact Or.inr (Or.inl ⟨Opt.n optarg :: pre, d, post, by rw [h1]; rfl,
            readable_cons_n optarg v hv pre h2, h3⟩)
        · exact Or.inr (Or.inr ⟨Opt.n optarg :: pre, a, post, by rw [h1]; rfl,
            readable_cons_n optarg v hv pre h2, h3, h4⟩)
    | o =>
      have e : getoptLoop N0 q (Opt.o :: rest) = getoptLoop N0 true rest := by
        simp only [getoptLoop]
      rw [e]
      rcases ih N0 true with ⟨hr, h⟩ | ⟨pre, d, post, h1, h2, h3⟩ | ⟨pre, a, post, h1, h2, h3, h4⟩
      · exact Or.inl ⟨readable_cons_o rest hr, h⟩
      · exact Or.inr (Or.inl ⟨Opt.o :: pre, d, post, by rw [h1]; rfl,
          readable_cons_o pre h2, h3⟩)
      · exact Or.inr (Or.inr ⟨Opt.o :: pre, a, post, by rw [h1]; rfl,
          readable_cons_o pre h2, h3, h4⟩)
    | other diag =>
      exact Or.inr (Or.inl ⟨[], diag, rest, rfl, readable_nil, rfl⟩)

theorem getoptLoop_last_n (pre post : List Opt) (optarg : String) (v N0 : Int) (q : Bool)
    (hr : Readable pre) (hv : atoi optarg = some v) (ho : ∀ x, x ∈ post → x = Opt.o) :
    getoptLoop N0 q (pre ++ Opt.n optarg :: post) =
      Parse.core v (q || decide (Opt.o ∈ pre ++ post)) := by
  obtain ⟨N1, h⟩ := getoptLoop_readable_append pre hr N0 q
  rw [h (Opt.n optarg :: post), getoptLoop]
  simp only [hv]
  rw [getoptLoop_all_o post ho v]
  congr 1
  cases post with
  | nil => simp
  | cons y ys =>
    have hy : y = Opt.o := ho y (List.mem_cons_self y ys)
    subst hy
    simp

theorem getoptLoop_usage_iff (opts : List Opt) (N0 : Int) (q : Bool) (diag : String) :
    getoptLoop N0 q opts = Parse.usage diag ↔
      ∃ pre post, opts = pre ++ Opt.other diag :: post ∧ Readable pre := by
  constructor
  · intro h
    rcases getoptLoop_cases opts N0 q with ⟨_, N, p, h1⟩ | ⟨pre, d, post, h1, h2, h3⟩ |
      ⟨pre, a, post, h1, h2, h3, h4⟩
    · rw [h1] at h
      exact absurd h (by simp)
    · rw [h3] at h
      have e : d = diag := by simpa using h
      subst e
      exact ⟨pre, post, h1, h2⟩
    · rw [h4] at h
      exact absurd h (by simp)
  · rintro ⟨pre, post, rfl, hr⟩
    obtain ⟨N1, h⟩ := getoptLoop_readable_append pre hr N0 q
    rw [h (Opt.other diag :: post), getoptLoop]

theorem getoptLoop_undefined_iff (opts : List Opt) (N0 : Int) (q : Bool) :
    getoptLoop N0 q opts = Parse.undefined ↔
      ∃ pre optarg post, opts = pre ++ Opt.n optarg :: post ∧ Readable pre ∧
        atoi optarg = none := by
  constructor
  · intro h
    rcases getoptLoop_cases opts N0 q with ⟨_, N, p, h1⟩ | ⟨pre, d, post, h1, h2, h3⟩ |
      ⟨pre, a, post, h1, h2, h3, h4⟩
    · rw [h1] at h
      exact absurd h (by simp)
    · rw [h3] at h
      exact absurd h (by simp)
    · exact ⟨pre, a, post, h1, h2, h3⟩
  · rintro ⟨pre, optarg, post, rfl, hr, hv⟩
    obtain ⟨N1, h⟩ := getoptLoop_readable_append pre hr N0 q
    rw [h (Opt.n optarg :: post), getoptLoop]
    simp only [hv]

theorem getoptLoop_core_iff (opts : List Opt) (N0 : Int) (q : Bool) :
    (∃ N p, getoptLoop N0 q opts = Parse.core N p) ↔ Readable opts := by
  constructor
  · rintro ⟨N, p, h⟩
    rcases getoptLoop_cases opts N0 q with ⟨hr, _⟩ | ⟨pre, d, post, h1, h2, h3⟩ |
      ⟨pre, a, post, h1, h2, h3, h4⟩
    · exact hr
    · rw [h3] at h
      exact absurd h (by simp)
    · rw [h4] at h
      exact absurd h (by simp)
  · intro hr
    rcases getoptLoop_cases opts N0 q with ⟨_, h⟩ | ⟨pre, d, post, h1, h2, h3⟩ |
      ⟨pre, a, post, h1, h2, h3, h4⟩
    · exact h
    · have hm : Opt.other d ∈ opts := by rw [h1]; simp
      rcases hr _ hm with e | ⟨a, v, e, _⟩
      · exact absurd e (by simp)
      · exact absurd e (by simp)
    · have hm : Opt.n a ∈ opts := by rw [h1]; simp
      rcases hr _ hm with e | ⟨a2, v, e, hv⟩
      · exact absurd e (by simp)
      · have e2 : a = a2 := by simpa using e
        subst e2
        rw [h3] at hv
        exact absurd hv (by simp)

/-- C13, amended: the `N` with which the option loop falls through to the allocation
is not validated.  (1) With no `-n` it is the start value, `16` in `main`.  (2) With
readable options it is the number `atoi` reads from the argument of the last `-n`,
whatever was given before and whether or not `-o` stands before or behind it; the
flag is set exactly when it was set or a `-o` is given.  (3) The decimal numeral of an
`n <= 2147483647`, in particular of a positive one, gives `N = n`.  (4)-(6) The loop
falls through exactly when every option is readable; it ends with the usage text
exactly when `getopt` rejects an option after readable ones; the behaviour is
undefined exactly when the number of a `-n` after readable options does not fit an
`int`.  (7)-(10) `main` hands the `N` of the loop to `malloc` and to the sieve; on a
rejected option it exits with `EXIT_FAILURE` after the diagnostic of `getopt` and the
usage text.  (11)-(15) `atoi` skips blanks, reads an optional sign and the digits up
to the first other character: a numeral gives its value, negated after `-`, and an
argument that does not continue with a digit there gives `0`. -/
theorem C13_bound_from_options :
    (∀ (opts : List Opt) (N0 : Int) (q : Bool), (∀ x, x ∈ opts → x = Opt.o) →
      getoptLoop N0 q opts = Parse.core N0 (q || decide (opts ≠ []))) ∧
    (∀ (pre post : List Opt) (optarg : String) (v N0 : Int) (q : Bool),
      Readable pre → atoi optarg = some v → (∀ x, x ∈ post → x = Opt.o) →
      getoptLoop N0 q (pre ++ Opt.n optarg :: post) =
        Parse.core v (q || decide (Opt.o ∈ pre ++ post))) ∧
    (∀ (n : Nat) (N0 : Int) (q : Bool), n ≤ 2147483647 →
      getoptLoop N0 q [Opt.n (Nat.repr n)] = Parse.core n q) ∧
    (∀ (opts : List Opt) (N0 : Int) (q : Bool),
      (∃ N p, getoptLoop N0 q opts = Parse.core N p) ↔ Readable opts) ∧
    (∀ (opts : List Opt) (N0 : Int) (q : Bool) (diag : String),
      getoptLoop N0 q opts = Parse.usage diag ↔
        ∃ pre post, opts = pre ++ Opt.other diag :: post ∧ Readable pre) ∧
    (∀ (opts : List Opt) (N0 : Int) (q : Bool),
      getoptLoop N0 q opts = Parse.undefined ↔
        ∃ pre optarg post, opts = pre ++ Opt.n optarg :: post ∧ Readable pre ∧
          atoi optarg = none) ∧
    (∀ (opts : List Opt) (malloc : Int → Option Buffer) (N : Int) (p : Bool),
      getoptLoop 16 false opts = Parse.core N p →
      sieveMain opts malloc = runCore N p (malloc N)) ∧
    (∀ (opts : List Opt) (malloc : Int → Option Buffer), (∀ x, x ∈ opts → x = Opt.o) →
      sieveMain opts malloc = runCore 16 (decide (opts ≠ [])) (malloc 16)) ∧
    (∀ (pre post : List Opt) (optarg : String) (v : Int) (malloc : Int → Option Buffer),
      Readable pre → atoi optarg = some v → (∀ x, x ∈ post → x = Opt.o) →
      sieveMain (pre ++ Opt.n optarg :: post) malloc =
        runCore v (decide (Opt.o ∈ pre ++ post)) (malloc v)) ∧
    (∀ (pre post : List Opt) (diag : String) (malloc : Int → Option Buffer),
      Readable pre →
      sieveMain (pre ++ Opt.other diag :: post) malloc =
        some ⟨EXIT_FAILURE, [Event.err diag, Event.err usageText]⟩) ∧
    (∀ (s : String) (v : Int),
      atoi s = some v ↔ v = atoiChars s.data ∧ -2147483648 ≤ v ∧ v ≤ 2147483647) ∧
    (∀ (blanks tail : List Char) (n : Nat), (∀ ch, ch ∈ blanks → isSpaceC ch = true) →
      (∀ ch, ch ∈ tail.head? → ¬ (48 ≤ ch.toNat ∧ ch.toNat ≤ 57)) →
      atoiChars (blanks ++ ((Nat.repr n).data ++ tail)) = (n : Int)) ∧
    (∀ (blanks tail : List Char) (sg : Char) (n : Nat),
      (∀ ch, ch ∈ blanks → isSpaceC ch = true) → (sg.toNat = 45 ∨ sg.toNat = 43) →
      (∀ ch, ch ∈ tail.head? → ¬ (48 ≤ ch.toNat ∧ ch.toNat ≤ 57)) →
      atoiChars (blanks ++ sg :: ((Nat.repr n).data ++ tail)) =
        if sg.toNat = 45 then - (n : Int) else (n : Int)) ∧
    (∀ (blanks tail : List Char), (∀ ch, ch ∈ blanks → isSpaceC ch = true) →
      (∀ ch, ch ∈ tail.head? → isSpaceC ch = false ∧ ch.toNat ≠ 45 ∧ ch.toNat ≠ 43 ∧
        ¬ (48 ≤ ch.toNat ∧ ch.toNat ≤ 57)) →
      atoiChars (blanks ++ tail) = 0) ∧
    (∀ (blanks tail : List Char) (sg : Char), (∀ ch, ch ∈ blanks → isSpaceC ch = true) →
      (sg.toNat = 45 ∨ sg.toNat = 43) →
      (∀ ch, ch ∈ tail.head? → ¬ (48 ≤ ch.toNat ∧ ch.toNat ≤ 57)) →
      atoiChars (blanks ++ sg :: tail) = 0) := by
  refine ⟨fun opts N0 q ho => getoptLoop_all_o opts ho N0 q,
    fun pre post optarg v N0 q hr hv ho => getoptLoop_last_n pre post optarg v N0 q hr hv ho,
    fun n N0 q hn => ?_, getoptLoop_core_iff, getoptLoop_usage_iff, getoptLoop_undefined_iff,
    fun opts malloc N p h => ?_, fun opts malloc ho => ?_,
    fun pre post optarg v malloc hr hv ho => ?_, fun pre post diag malloc hr => ?_,
    atoi_iff, fun blanks tail n hb ht => ?_, fun blanks tail sg n hb hs ht => ?_,
    fun blanks tail hb ht => ?_, fun blanks tail sg hb hs ht => ?_⟩
  · simp only [getoptLoop, atoi_repr n hn]
  · simp only [sieveMain, h]
  · have h := getoptLoop_all_o opts ho 16 false
    simp only [sieveMain, h, Bool.false_or]
  · have h := getoptLoop_last_n pre post optarg v 16 false hr hv ho
    simp only [sieveMain, h, Bool.false_or]
  · have h := (getoptLoop_usage_iff (pre ++ Opt.other diag :: post) 16 false diag).mpr
      ⟨pre, post, rfl, hr⟩
    simp only [sieveMain, h]
  · rw [atoiChars_blanks blanks _ hb, atoiChars_repr_tail n tail ht]
  · rw [atoiChars_blanks blanks _ hb, atoiChars_sign sg _ hs, digitsVal_repr n tail ht]
  · rw [atoiChars_blanks blanks _ hb, atoiChars_plain tail ht]
  · rw [atoiChars_blanks blanks _ hb, atoiChars_sign sg _ hs, digitsVal_stop 0 tail ht]
    simp

theorem C13_bound_from_options_witness :
    getoptLoop 16 false [Opt.o, Opt.o] = Parse.core 16 (false || decide ([Opt.o, Opt.o] ≠ [])) ∧
    getoptLoop 16 false ([Opt.n "7", Opt.o] ++ Opt.n "5" :: [Opt.o]) =
      Parse.core 5 (false || decide (Opt.o ∈ [Opt.n "7", Opt.o] ++ [Opt.o])) ∧
    getoptLoop 16 false [Opt.n (Nat.repr 1000)] = Parse.core (1000 : Nat) false ∧
    getoptLoop 16 true [Opt.n "-5", Opt.other "d", Opt.o] = Parse.usage "d" ∧
    sieveMain ([Opt.o] ++ Opt.other "d" :: [Opt.n "3"]) (fun _ => none) =
      some ⟨EXIT_FAILURE, [Event.err "d", Event.err usageText]⟩ ∧
    atoiChars ([Char.ofNat 32] ++ Char.ofNat 45 :: "abc".data) = 0 ∧
    atoiChars ([Char.ofNat 32] ++ Char.ofNat 45 :: ((Nat.repr 12).data ++ "x".data)) =
      (if (Char.ofNat 45).toNat = 45 then - ((12 : Nat) : Int) else ((12 : Nat) : Int)) :=
  ⟨C13_bound_from_options.1 [Opt.o, Opt.o] 16 false (by decide),
    C13_bound_from_options.2.1 [Opt.n "7", Opt.o] [Opt.o] "5" 5 16 false
      (readable_cons_n "7" 7 (by decide) _ (readable_cons_o _ readable_nil)) (by decide)
      (by decide),
    C13_bound_from_options.2.2.1 1000 16 false (by decide),
    (C13_bound_from_options.2.2.2.2.1 [Opt.n "-5", Opt.other "d", Opt.o] 16 true "d").mpr
      ⟨[Opt.n "-5"], [Opt.o], rfl, readable_cons_n "-5" (-5) (by decide) _ readable_nil⟩,
    C13_bound_from_options.2.2.2.2.2.2.2.2.2.1 [Opt.o] [Opt.n "3"] "d" (fun _ => none)
      (readable_cons_o _ readable_nil),
    C13_bound_from_options.2.2.2.2.2.2.2.2.2.2.2.2.2.2 [Char.ofNat 32] "abc".data
      (Char.ofNat 45) (by decide) (by decide) (by decide),
    C13_bound_from_options.2.2.2.2.2.2.2.2.2.2.2.2.1 [Char.ofNat 32] "x".data
      (Char.ofNat 45) 12 (by decide) (by decide) (by decide)⟩

/-! ## The loops with `int` counters against the loops over index ranges -/

theorem upTo_cons (a b : Nat) (h : a < b) : upTo a b = a :: upTo (a + 1) b := by
  unfold upTo
  have e : b - a = (b - (a + 1)) + 1 := by omega
  rw [e, List.range'_succ]

theorem upTo_nil (a b : Nat) (h : b ≤ a) : upTo a b = [] := by
  unfold upTo
  have e : b - a = 0 := by omega
  rw [e]
  rfl

/-- A counted loop over `a .. b-1` with `b <= N`, on a machine that delivers the
counter values up to `N` exactly, is the fold of its body over `a .. b-1`. -/
theorem forLoop_eq {σ τ : Type} (g : Machine) (N : Nat)
    (ha : ∀ x : Nat, x ≤ N → g.arith (x : Int) = some (x : Int))
    (f : τ → σ) (cond : Int → Option Bool) (body : σ → Int → Option σ)
    (bodyN : τ → Nat → Option τ) (lo b : Nat) (hb : b ≤ N)
    (hcond : ∀ i : Nat, cond (i : Int) = some (decide (i < b)))
    (hbody : ∀ (s : τ) (i : Nat), lo ≤ i → i < b → body (f s) (i : Int) = (bodyN s i).map f)
    (fuel a : Nat) (s : τ) (hlo : lo ≤ a) (hab : a ≤ b) (hf : b - a < fuel) :
    forLoop g cond body fuel (a : Int) (f s) = ((upTo a b).foldlM bodyN s).map f := by
  induction fuel generalizing a s with
  | zero => omega
  | succ fuel ih =>
    rw [forLoop, hcond a]
    by_cases hlt : a < b
    · rw [upTo_cons a b hlt, List.foldlM_cons, hbody s a hlo hlt]
      simp only [hlt, decide_True]
      cases hs : bodyN s a with
      | none => rfl
      | some s2 =>
        have hc : ((a : Int) + 1) = ((a + 1 : Nat) : Int) := by push_cast; rfl
        simp only [Option.map_some, hc, ha (a + 1) (by omega)]
        exact ih (a + 1) s2 (by omega) (by omega) (by omega)
    · rw [upTo_nil a b (by omega)]
      simp only [hlt, decide_False]
      rfl

theorem writeCellM_eq (g : Machine) (N : Nat) (hg : Admits g N) (list : Buffer) (i : Nat)
    (v : Int) (h2 : 2 ≤ i) (hN : i < N) :
    writeCellM g list (i : Int) v = writeCell list i v := by
  simp [writeCellM, hg.2.1 i h2 hN]

theorem readCellM_eq (g : Machine) (N : Nat) (hg : Admits g N) (list : Buffer) (i : Nat)
    (h2 : 2 ≤ i) (hN : i < N) :
    readCellM g list (i : Int) = readCell list i := by
  simp [readCellM, hg.2.1 i h2 hN]

theorem markBodyM_eq (g : Machine) (N : Nat) (hg : Admits g N) (c m : Nat) (hc : 2 ≤ c)
    (h2 : 2 ≤ m) (hN : m < N) (list : Buffer) :
    markBodyM g (c : Int) list (m : Int) = markBody c list m := by
  have hc0 : ¬ ((c : Int) = 0) := by omega
  have hc1 : c ≠ 0 := by omega
  have e : Int.tmod (m : Int) (c : Int) = ((m % c : Nat) : Int) := (Int.ofNat_tmod m c).symm
  simp only [markBodyM, cModM, hc0, hg.2.2 c hc, false_or, if_false, e, markBody, cMod, hc1,
    writeCellM_eq g N hg list m 1 h2 hN]
  have e3 : (((m % c : Nat) : Int) = 0) ↔ (m % c = 0) := by omega
  rw [if_neg (by decide : ¬ (true = false))]
  simp only [e3]

theorem initializerM_eq (g : Machine) (N : Nat) (hg : Admits g N) (hN : 2 ≤ N) (fuel : Nat)
    (hf : N ≤ fuel) (list : Buffer) :
    initializerM g N fuel list = initializer N list := by
  have h := forLoop_eq g N hg.1 id (fun c => some (decide (c < (N : Int))))
    (fun l c => writeCellM g l c 0) initBody 2 N (Nat.le_refl N)
    (fun i => by simp)
    (fun s i h2 hi => by
      simp only [id, Option.map_id_fun, writeCellM_eq g N hg s i 0 h2 hi]
      rfl)
    fuel 2 list (Nat.le_refl 2) hN (by omega)
  simpa [initializerM, initializer, runLoop] using h

theorem driverBodyM_eq (g : Machine) (N : Nat) (hg : Admits g N) (fuel : Nat) (hf : N ≤ fuel)
    (c : Nat) (hc : 2 ≤ c) (hcN : c < N) (list : Buffer) :
    driverBodyM g N fuel list (c : Int) = driverBody N list c := by
  have hc1 : ((c : Int) + 1) = ((c + 1 : Nat) : Int) := by push_cast; rfl
  have h := forLoop_eq g N hg.1 id (fun m => some (decide (m < (N : Int))))
    (markBodyM g (c : Int)) (markBody c) (c + 1) N (Nat.le_refl N)
    (fun i => by simp)
    (fun s i h2 hi => by
      simp only [id, Option.map_id_fun, markBodyM_eq g N hg c i hc (by omega) hi s])
    fuel (c + 1) list (Nat.le_refl _) (by omega) (by omega)
  simp only [driverBodyM, driverBody, readCellM_eq g N hg list c hc hcN, hc1,
    hg.1 (c + 1) (by omega), parallelMarker, runLoop]
  cases readCell list c with
  | none => rfl
  | some v =>
    by_cases hv : v = 0
    · simp only [hv, if_true]
      simpa using h
    · simp only [hv, if_false]

theorem sieveDriverM_eq (g : Machine) (N : Nat) (hg : Admits g N) (hN : 2 ≤ N) (fuel : Nat)
    (hf : N ≤ fuel) (list : Buffer) :
    sieveDriverM g N fuel list = sieveDriver N list := by
  have hs1 : 1 ≤ sqrtN N := le_sqrtN_of_sq_lt N 1 (by omega)
  have hs2 := sqrtN_lt N hN
  have h := forLoop_eq g N hg.1 id (fun c => some (decide (c ≤ (sqrtN N : Int))))
    (driverBodyM g N fuel) (driverBody N) 2 (sqrtN N + 1) (by omega)
    (fun i => by
      have e : ((i : Int) ≤ (sqrtN N : Int)) ↔ i < sqrtN N + 1 := by omega
      simp only [e])
    (fun s i h2 hi => by
      simp only [id, Option.map_id_fun, driverBodyM_eq g N hg fuel hf i h2 (by omega) s])
    fuel 2 list (Nat.le_refl 2) (by omega) (by omega)
  simpa [sieveDriverM, sieveDriver] using h

theorem extractBodyM_eq (g : Machine) (N : Nat) (hg : Admits g N) (st : Buffer × List Nat)
    (c : Nat) (h2 : 2 ≤ c) (hN : c < N) :
    extractBodyM g (st.1, st.2.map Int.ofNat) (c : Int) =
      (extractBody st c).map (fun t => (t.1, t.2.map Int.ofNat)) := by
  simp only [extractBodyM, extractBody, readCellM_eq g N hg st.1 c h2 hN]
  cases readCell st.1 c with
  | none => rfl
  | some v =>
    by_cases hv : v = 0
    · simp [hv]
    · simp [hv]

theorem resultExtractorM_eq (g : Machine) (N : Nat) (hg : Admits g N) (hN : 2 ≤ N)
    (fuel : Nat) (hf : N ≤ fuel) (list : Buffer) :
    resultExtractorM g N fuel list =
      (resultExtractor N list).map (fun t => (t.1, t.2.map Int.ofNat)) := by
  have hn1 : ((N : Int) - 1) = ((N - 1 : Nat) : Int) := by omega
  have e2 : N - 1 + 1 = N := by omega
  have h := forLoop_eq g N hg.1 (fun t : Buffer × List Nat => (t.1, t.2.map Int.ofNat))
    (fun c => match g.arith ((N : Int) - 1) with
      | none => none
      | some b => some (decide (c ≤ b)))
    (extractBodyM g) extractBody 2 N (Nat.le_refl N)
    (fun i => by
      have e : ((i : Int) ≤ ((N - 1 : Nat) : Int)) ↔ i < N := by omega
      simp only [hn1, hg.1 (N - 1) (by omega), e])
    (fun s i h2 hi => extractBodyM_eq g N hg s i h2 hi)
    fuel 2 (list, []) (Nat.le_refl 2) hN (by omega)
  simpa [resultExtractorM, resultExtractor, e2] using h

/-- On a machine that admits the run on `N`, with `fuel >= N`, the loops with `int`
counters print what the loops over the index ranges print. -/
theorem pipelineM_eq (g : Machine) (N : Nat) (hg : Admits g N) (hN : 2 ≤ N) (fuel : Nat)
    (hf : N ≤ fuel) (mem : Buffer) :
    pipelineM g N fuel mem = (pipeline N mem).map (fun out => out.map Int.ofNat) := by
  simp only [pipelineM, pipeline, sieveBuffer, initializerM_eq g N hg hN fuel hf]
  cases initializer N mem with
  | none => rfl
  | some l0 =>
    simp only [sieveDriverM_eq g N hg hN fuel hf]
    cases sieveDriver N l0 with
    | none => rfl
    | some list =>
      simp only [resultExtractorM_eq g N hg hN fuel hf]
      cases resultExtractor N list with
      | none => rfl
      | some st => rfl

theorem admits_exact (N : Nat) : Admits exactMachine N :=
  ⟨fun _ _ => rfl, fun _ _ _ => rfl, fun _ _ => rfl⟩

theorem wrap32_eq (x : Int) (h0 : -2147483648 ≤ x) (h1 : x ≤ 2147483647) : wrap32 x = x := by
  unfold wrap32
  omega

theorem admits_wrap (N : Nat) (hmax : N ≤ 2147483647) : Admits wrapMachine N := by
  refine ⟨fun x hx => ?_, fun _ _ _ => rfl, fun _ _ => rfl⟩
  show some (wrap32 (x : Int)) = some (x : Int)
  rw [wrap32_eq (x : Int) (by omega) (by omega)]

theorem admits_range (N : Nat) : Admits (rangeMachine N) N := by
  refine ⟨fun x hx => ?_, fun _ _ _ => rfl, fun _ _ => rfl⟩
  have h : (0 : Int) ≤ (x : Int) ∧ (x : Int) ≤ (N : Int) := by omega
  simp only [rangeMachine, h, and_self, if_true]

theorem admits_bounds (N : Nat) : Admits (boundsMachine N) N := by
  refine ⟨fun _ _ => rfl, fun i h2 hN => ?_, fun c hc => ?_⟩
  · have h : (2 : Int) ≤ (i : Int) ∧ (i : Int) < (N : Int) := by omega
    simp only [boundsMachine, h, and_self, decide_True]
  · have h : (2 : Int) ≤ (c : Int) := by omega
    simp only [boundsMachine, h, decide_True]

theorem pipeline_some (N : Nat) (hN : 2 ≤ N) (mem : Buffer) (hlen : mem.length = N) :
    ∃ out, pipeline N mem = some out :=
  ⟨_, pipeline_eq N hN mem hlen⟩

/-- C15: for every `N >= 2` and every block of `N` cells, the run in which a buffer
access with a subscript outside `2 .. N-1`, or outside the block, and a division by a
divisor below `2` count as failures completes (given `fuel >= N` loop tests), with
the output of the unguarded run: every subscript used by the initialiser, the driver,
the marker and the extractor lies in `[2, N)`, every divisor of `m % c` is at least
`2`, and no access and no division fails. -/
theorem C15_accesses_in_bounds (N : Nat) (hN : 2 ≤ N) (mem : Buffer) (hlen : mem.length = N)
    (fuel : Nat) (hf : N ≤ fuel) :
    (∃ out, pipeline N mem = some out ∧
      pipelineM (boundsMachine N) N fuel mem = some (out.map Int.ofNat) ∧
      pipelineM exactMachine N fuel mem = some (out.map Int.ofNat)) ∧
    (∀ (list : Buffer) (i v : Int), readCellM (boundsMachine N) list i = some v →
      2 ≤ i ∧ i < N ∧ i.toNat < list.length) ∧
    (∀ (list r : Buffer) (i v : Int), writeCellM (boundsMachine N) list i v = some r →
      2 ≤ i ∧ i < N ∧ i.toNat < list.length) ∧
    (∀ (m c r : Int), cModM (boundsMachine N) m c = some r → 2 ≤ c) := by
  obtain ⟨out, hout⟩ := pipeline_some N hN mem hlen
  refine ⟨⟨out, hout, ?_, ?_⟩, fun list i v h => ?_, fun list r i v h => ?_, fun m c r h => ?_⟩
  · rw [pipelineM_eq (boundsMachine N) N (admits_bounds N) hN fuel hf mem, hout]
    rfl
  · rw [pipelineM_eq exactMachine N (admits_exact N) hN fuel hf mem, hout]
    rfl
  · unfold readCellM at h
    by_cases hg : (boundsMachine N).index i = true ∧ 0 ≤ i
    · rw [if_pos hg] at h
      have hb : 2 ≤ i ∧ i < (N : Int) := by simpa [boundsMachine] using hg.1
      refine ⟨hb.1, hb.2, ?_⟩
      by_contra hcon
      unfold readCell at h
      rw [List.getElem?_eq_none (Nat.le_of_not_lt hcon)] at h
      exact absurd h (by simp)
    · rw [if_neg hg] at h
      exact absurd h (by simp)
  · unfold writeCellM at h
    by_cases hg : (boundsMachine N).index i = true ∧ 0 ≤ i
    · rw [if_pos hg] at h
      have hb : 2 ≤ i ∧ i < (N : Int) := by simpa [boundsMachine] using hg.1
      refine ⟨hb.1, hb.2, ?_⟩
      by_contra hcon
      unfold writeCell at h
      rw [if_neg hcon] at h
      exact absurd h (by simp)
    · rw [if_neg hg] at h
      exact absurd h (by simp)
  · unfold cModM at h
    by_cases hg : c = 0 ∨ (boundsMachine N).divisor c = false
    · rw [if_pos hg] at h
      exact absurd h (by simp)
    · have hd : ¬ ((boundsMachine N).divisor c = false) := fun e => hg (Or.inr e)
      simpa [boundsMachine] using hd

theorem C15_accesses_in_bounds_witness :
    (∃ out, pipeline 10 [5, -3, 8, 1, 1, 0, 4, 1, 0, 2] = some out ∧
      pipelineM (boundsMachine 10) 10 12 [5, -3, 8, 1, 1, 0, 4, 1, 0, 2] =
        some (out.map Int.ofNat) ∧
      pipelineM exactMachine 10 12 [5, -3, 8, 1, 1, 0, 4, 1, 0, 2] =
        some (out.map Int.ofNat)) ∧
    (∀ (list : Buffer) (i v : Int), readCellM (boundsMachine 10) list i = some v →
      2 ≤ i ∧ i < (10 : Nat) ∧ i.toNat < list.length) ∧
    (∀ (list r : Buffer) (i v : Int), writeCellM (boundsMachine 10) list i v = some r →
      2 ≤ i ∧ i < (10 : Nat) ∧ i.toNat < list.length) ∧
    (∀ (m c r : Int), cModM (boundsMachine 10) m c = some r → 2 ≤ c) :=
  C15_accesses_in_bounds 10 (by decide) [5, -3, 8, 1, 1, 0, 4, 1, 0, 2] rfl 12 (by decide)

/-- C20: for every `N` with `2 <= N <= 2^31 - 1` and every block of `N` cells, the run
of the three loops in which an arithmetic result (`c+1`, `c++`, `m++`, `N-1`) outside
`0 .. N` counts as a failure completes (given `fuel >= N` loop tests), and the run
with wrapping 32-bit arithmetic and the run with exact integers complete with the same
output; every result that the first run lets through lies in `0 .. N` and is not
changed by wrapping. -/
theorem C20_no_overflow (N : Nat) (hN : 2 ≤ N) (hmax : N ≤ 2147483647) (mem : Buffer)
    (hlen : mem.length = N) (fuel : Nat) (hf : N ≤ fuel) :
    (∃ out, pipelineM (rangeMachine N) N fuel mem = some out ∧
      pipelineM wrapMachine N fuel mem = some out ∧
      pipelineM exactMachine N fuel mem = some out) ∧
    (∀ x y : Int, (rangeMachine N).arith x = some y →
      0 ≤ x ∧ x ≤ N ∧ y = x ∧ wrap32 x = x) := by
  obtain ⟨out, hout⟩ := pipeline_some N hN mem hlen
  refine ⟨⟨out.map Int.ofNat, ?_, ?_, ?_⟩, fun x y h => ?_⟩
  · rw [pipelineM_eq (rangeMachine N) N (admits_range N) hN fuel hf mem, hout]
    rfl
  · rw [pipelineM_eq wrapMachine N (admits_wrap N hmax) hN fuel hf mem, hout]
    rfl
  · rw [pipelineM_eq exactMachine N (admits_exact N) hN fuel hf mem, hout]
    rfl
  · by_cases hx : 0 ≤ x ∧ x ≤ (N : Int)
    · have e : (rangeMachine N).arith x = some x := by
        simp only [rangeMachine, hx, and_self, if_true]
      rw [e] at h
      exact ⟨hx.1, hx.2, (Option.some.inj h).symm, wrap32_eq x (by omega) (by omega)⟩
    · have e : (rangeMachine N).arith x = none := by
        simp only [rangeMachine, hx, if_false]
      rw [e] at h
      exact absurd h (by simp)

theorem C20_no_overflow_witness :
    (∃ out, pipelineM (rangeMachine 10) 10 12 [5, -3, 8, 1, 1, 0, 4, 1, 0, 2] = some out ∧
      pipelineM wrapMachine 10 12 [5, -3, 8, 1, 1, 0, 4, 1, 0, 2] = some out ∧
      pipelineM exactMachine 10 12 [5, -3, 8, 1, 1, 0, 4, 1, 0, 2] = some out) ∧
    (∀ x y : Int, (rangeMachine 10).arith x = some y →
      0 ≤ x ∧ x ≤ (10 : Nat) ∧ y = x ∧ wrap32 x = x) :=
  C20_no_overflow 10 (by decide) (by decide) [5, -3, 8, 1, 1, 0, 4, 1, 0, 2] rfl 12
    (by decide)

/-! ## The bound of the sweep -/

/-- Rounding the square root to a grid at least as fine as `1 / (t+1)` and dropping
the fraction gives the integer square root `t`. -/
theorem round_then_truncate (N t P M s : Nat) (ht1 : t * t ≤ N) (ht2 : N < (t + 1) * (t + 1))
    (hP : t + 1 ≤ P) (hM : M = N * (P * P)) (hs1 : s * s ≤ M) (hs2 : M < (s + 1) * (s + 1)) :
    (if M ≤ s * s + s then s else s + 1) / P = t := by
  have hPP : 0 < P * P := Nat.mul_pos (by omega) (by omega)
  have hQ : (t + 1) * P * ((t + 1) * P) = (t + 1) * (t + 1) * (P * P) := by ring
  have ha : t * P ≤ s := by
    by_contra hcon
    have h1 : s + 1 ≤ t * P := by omega
    have h2 : (s + 1) * (s + 1) ≤ t * P * (t * P) := Nat.mul_le_mul h1 h1
    have h3 : t * P * (t * P) = t * t * (P * P) := by ring
    have h4 : t * t * (P * P) ≤ N * (P * P) := Nat.mul_le_mul_right _ ht1
    omega
  have hup : M + P * P ≤ (t + 1) * P * ((t + 1) * P) := by
    have h1 : (N + 1) * (P * P) ≤ (t + 1) * (t + 1) * (P * P) :=
      Nat.mul_le_mul_right _ ht2
    have h2 : (N + 1) * (P * P) = N * (P * P) + P * P := by ring
    omega
  have hb : s < (t + 1) * P := by
    by_contra hcon
    have h1 : (t + 1) * P ≤ s := by omega
    have h2 : (t + 1) * P * ((t + 1) * P) ≤ s * s := Nat.mul_le_mul h1 h1
    omega
  have hm : (if M ≤ s * s + s then s else s + 1) < (t + 1) * P := by
    by_cases hr : M ≤ s * s + s
    · rw [if_pos hr]
      exact hb
    · rw [if_neg hr]
      by_contra hcon
      have h1 : (t + 1) * P = s + 1 := by omega
      have h2 : (s + 1) * (s + 1) = s * s + s + (s + 1) := by ring
      rw [h1, h2] at hup
      have h3 : (t + 1) * P ≤ P * P := Nat.mul_le_mul_right P hP
      omega
  have hlo : t * P ≤ (if M ≤ s * s + s then s else s + 1) := by
    by_cases hr : M ≤ s * s + s
    · rw [if_pos hr]
      exact ha
    · rw [if_neg hr]
      omega
  exact Nat.div_eq_of_lt_le hlo hm

theorem log4_le (N : Nat) : log4 N ≤ 16 :=
  Nat.findGreatest_le 16

theorem log4_spec (N : Nat) (h1 : 1 ≤ N) (hmax : N ≤ 2147483647) :
    4 ^ log4 N ≤ N ∧ N < 4 ^ (log4 N + 1) := by
  have hlow : 4 ^ log4 N ≤ N :=
    Nat.findGreatest_spec (P := fun k => 4 ^ k ≤ N) (Nat.zero_le 16) (by simpa using h1)
  refine ⟨hlow, ?_⟩
  by_contra hcon
  have hge : 4 ^ (log4 N + 1) ≤ N := Nat.le_of_not_lt hcon
  by_cases h16 : log4 N + 1 ≤ 16
  · exact Nat.findGreatest_is_greatest (P := fun k => 4 ^ k ≤ N)
      (Nat.lt_succ_self (log4 N)) h16 hge
  · have e : log4 N = 16 := by have := log4_le N; omega
    rw [e] at hlow
    have : (4 : Nat) ^ 16 = 4294967296 := by norm_num
    omega

/-- The square root counted in units of the last place has 53 binary digits. -/
theorem sqrtDouble_significand (N : Nat) (h1 : 1 ≤ N) (hmax : N ≤ 2147483647) :
    2 ^ 52 ≤ Nat.sqrt (N * (2 ^ (52 - log4 N) * 2 ^ (52 - log4 N))) ∧
      Nat.sqrt (N * (2 ^ (52 - log4 N) * 2 ^ (52 - log4 N))) < 2 ^ 53 := by
  obtain ⟨hlo, hhi⟩ := log4_spec N h1 hmax
  have hk := log4_le N
  have hu : 2 ^ (52 - log4 N) * 2 ^ (52 - log4 N) = 4 ^ (52 - log4 N) := by
    rw [← Nat.mul_pow]
  have e1 : 4 ^ log4 N * 4 ^ (52 - log4 N) = 4 ^ 52 := by
    rw [← Nat.pow_add]
    congr 1
    omega
  have e2 : 4 ^ (log4 N + 1) * 4 ^ (52 - log4 N) = 4 ^ 53 := by
    rw [← Nat.pow_add]
    congr 1
    omega
  have hpos : 0 < 4 ^ (52 - log4 N) := Nat.pow_pos (by decide)
  rw [hu]
  constructor
  · rw [Nat.le_sqrt]
    have h : 4 ^ log4 N * 4 ^ (52 - log4 N) ≤ N * 4 ^ (52 - log4 N) :=
      Nat.mul_le_mul_right _ hlo
    rw [e1] at h
    have e3 : (2 : Nat) ^ 52 * 2 ^ 52 = 4 ^ 52 := by norm_num
    rw [e3]
    exact h
  · rw [Nat.sqrt_lt]
    have h : N * 4 ^ (52 - log4 N) < 4 ^ (log4 N + 1) * 4 ^ (52 - log4 N) :=
      Nat.mul_lt_mul_of_pos_right hhi hpos
    rw [e2] at h
    have e3 : (2 : Nat) ^ 53 * 2 ^ 53 = 4 ^ 53 := by norm_num
    rw [e3]
    exact h

theorem sqrtDouble_eq (N : Nat) (hmax : N ≤ 2147483647) : sqrtDouble N = sqrtN N := by
  have hk := log4_le N
  have hP : sqrtN N + 1 ≤ 2 ^ (52 - log4 N) := by
    have h1 : (2 : Nat) ^ 36 ≤ 2 ^ (52 - log4 N) :=
      Nat.pow_le_pow_right (by decide) (by omega)
    have h2 := sqrtN_le N
    have h3 : (2 : Nat) ^ 36 = 68719476736 := by norm_num
    omega
  exact round_then_truncate N (sqrtN N) (2 ^ (52 - log4 N))
    (N * (2 ^ (52 - log4 N) * 2 ^ (52 - log4 N)))
    (Nat.sqrt (N * (2 ^ (52 - log4 N) * 2 ^ (52 - log4 N))))
    (sqrtN_sq_le N) (sqrtN_lt_succ_sq N) hP rfl (Nat.sqrt_le _) (Nat.lt_succ_sqrt _)

/-- C18: for every `N` with `2 <= N <= 2^31 - 1`, the value of `(int)sqrt(N)` with the
correctly rounded binary64 square root is the bound `sqrtN` of the sweep, and `sqrtN`
is the integer floor of the square root: `sqrtN * sqrtN <= N < (sqrtN+1) * (sqrtN+1)`.
The driver loop with its `int` counter examines the candidates of the list
`2, 3, ..., sqrtN` in this, increasing, order, and these are exactly the `c >= 2` with
`c * c <= N`. -/
theorem C18_sweep_bound_is_floor_sqrt (N : Nat) (hN : 2 ≤ N) (hmax : N ≤ 2147483647) :
    sqrtDouble N = sqrtN N ∧
    sqrtN N * sqrtN N ≤ N ∧ N < (sqrtN N + 1) * (sqrtN N + 1) ∧
    (∀ (fuel : Nat) (list : Buffer), N ≤ fuel →
      sieveDriverM wrapMachine N fuel list =
        (upTo 2 (sqrtN N + 1)).foldlM (driverBody N) list) ∧
    (upTo 2 (sqrtN N + 1)).Pairwise (fun x y => x < y) ∧
    (∀ c, c ∈ upTo 2 (sqrtN N + 1) ↔ 2 ≤ c ∧ c ≤ sqrtN N) ∧
    (∀ c, c ∈ upTo 2 (sqrtN N + 1) ↔ 2 ≤ c ∧ c * c ≤ N) := by
  refine ⟨sqrtDouble_eq N hmax, sqrtN_sq_le N, sqrtN_lt_succ_sq N, fun fuel list hf => ?_,
    List.pairwise_lt_range' 2 _, fun c => ?_, fun c => ?_⟩
  · exact sieveDriverM_eq wrapMachine N (admits_wrap N hmax) hN fuel hf list
  · rw [mem_upTo]
    omega
  · rw [mem_upTo]
    constructor
    · rintro ⟨h2, h3⟩
      have h4 : c ≤ sqrtN N := by omega
      have h5 : c * c ≤ sqrtN N * sqrtN N := Nat.mul_le_mul h4 h4
      have h6 := sqrtN_sq_le N
      exact ⟨h2, by omega⟩
    · rintro ⟨h2, h3⟩
      have := le_sqrtN_of_sq_lt N c h3
      exact ⟨h2, by omega⟩

theorem C18_sweep_bound_is_floor_sqrt_witness :
    sqrtDouble 2147483647 = sqrtN 2147483647 ∧
    sqrtN 2147483647 * sqrtN 2147483647 ≤ 2147483647 ∧
    2147483647 < (sqrtN 2147483647 + 1) * (sqrtN 2147483647 + 1) ∧
    (∀ (fuel : Nat) (list : Buffer), 2147483647 ≤ fuel →
      sieveDriverM wrapMachine 2147483647 fuel list =
        (upTo 2 (sqrtN 2147483647 + 1)).foldlM (driverBody 2147483647) list) ∧
    (upTo 2 (sqrtN 2147483647 + 1)).Pairwise (fun x y => x < y) ∧
    (∀ c, c ∈ upTo 2 (sqrtN 2147483647 + 1) ↔ 2 ≤ c ∧ c ≤ sqrtN 2147483647) ∧
    (∀ c, c ∈ upTo 2 (sqrtN 2147483647 + 1) ↔ 2 ≤ c ∧ c * c ≤ 2147483647) :=
  C18_sweep_bound_is_floor_sqrt 2147483647 (by decide) (by decide)

end Sieve
